import Mathlib

/-!
Shallow embedding of the scheduling engine of the Horaris_LS repository
(`src/scheduler/models.py`, `src/scheduler/scheduling.py`,
`src/scheduler/data_loader.py`).

Modelling conventions:
* Python `dict` (insertion ordered, update-in-place) is an association list
  `List (String × α)` with first-match lookup, in-place overwrite and
  append-on-fresh-key insertion.
* Python `set[str]` is a duplicate-free `List String`: `set.add` is a
  membership-guarded append, `set.discard` is a filter.  Only membership,
  `len` and `sorted(...)` are ever observed by the code, so the list order
  is irrelevant to every observable.
* Python string comparison (used by `sorted` and `list.sort`) is
  code-point lexicographic comparison, implemented here on `Char.toNat`.
* Raising an exception is modelled with `Except` / `Option` results; the
  raising methods of `Schedule` return `Except SchedError Schedule` where
  the `ok` value is the post-state.
-/

namespace Horaris

/-- Code-point lexicographic strict comparison on char lists, mirroring how
Python compares strings. -/
def lexLt : List Char → List Char → Bool
  | [], [] => false
  | [], _ :: _ => true
  | _ :: _, [] => false
  | c :: cs, d :: ds =>
    if c.toNat < d.toNat then true
    else if d.toNat < c.toNat then false
    else lexLt cs ds

/-- Python `a < b` on strings. -/
def strLt (a b : String) : Bool := lexLt a.data b.data

/-- Python `a <= b` on strings (total preorder used by sorting). -/
def strLe (a b : String) : Bool := !(strLt b a)

/-- Stable insertion into a sorted list: the new element goes after every
existing element that is `le`-below-or-equal to it, which is exactly the
placement a stable ascending sort gives. -/
def insertBy (le : α → α → Bool) (x : α) : List α → List α
  | [] => [x]
  | y :: ys => if le y x then y :: insertBy le x ys else x :: y :: ys

/-- Stable ascending sort, modelling Python `sorted` / `list.sort`. -/
def sortBy (le : α → α → Bool) (l : List α) : List α :=
  l.foldl (fun acc x => insertBy le x acc) []

/-- First-match lookup in an association list (Python `dict.get`). -/
def alGet {α : Type} : List (String × α) → String → Option α
  | [], _ => none
  | (k, v) :: rest, key => if k = key then some v else alGet rest key

/-- Lookup with a default (Python `defaultdict` read / `dict.get(k, d)`). -/
def alGetD {α : Type} (l : List (String × α)) (key : String) (d : α) : α :=
  (alGet l key).getD d

/-- Python `d[k] = v`: overwrite in place if the key is present, else append. -/
def alInsert {α : Type} : List (String × α) → String → α → List (String × α)
  | [], key, val => [(key, val)]
  | (k, v) :: rest, key, val =>
    if k = key then (k, val) :: rest else (k, v) :: alInsert rest key val

/-- Update the value at a key in place; identity when the key is absent. -/
def alModify {α : Type} : List (String × α) → String → (α → α) → List (String × α)
  | [], _, _ => []
  | (k, v) :: rest, key, f =>
    if k = key then (k, f v) :: rest else (k, v) :: alModify rest key f

/-- Membership-guarded append, modelling Python `set.add` on a
duplicate-free list. -/
def setAdd (x : String) (l : List String) : List String :=
  if x ∈ l then l else l ++ [x]

/-- Removal of an element, modelling Python `set.discard`. -/
def setDiscard (x : String) (l : List String) : List String :=
  l.filter (fun y => y != x)

/-- Student record of `models.py` (frozen dataclass). -/
structure Student where
  identifier : String
  name : String
  stage : Option String := none
  group : Option String := none
  deriving DecidableEq, Repr

/-- Adult record of `models.py` (frozen dataclass). -/
structure Adult where
  identifier : String
  name : String
  role : Option String := none
  deriving DecidableEq, Repr

/-- Workshop record of `models.py` (frozen dataclass).  The timeslot is the
literal label string; capacities are Python `int | None`. -/
structure Workshop where
  identifier : String
  name : String
  space : String
  timeslot : String
  capacity_students : Option Int := none
  capacity_adults : Option Int := some 1
  notes : Option String := none
  deriving DecidableEq, Repr

/-- Mutable link between a workshop and its occupant sets
(`scheduling.Assignment`). -/
structure Assignment where
  workshop : Workshop
  students : List String
  adults : List String
  deriving DecidableEq, Repr

/-- The state of `scheduling.Schedule`: the id-to-workshop catalog and the
timeslot-to-(id-to-Assignment) table. -/
structure Schedule where
  workshops_by_id : List (String × Workshop)
  assignments : List (String × List (String × Assignment))
  deriving DecidableEq, Repr

/-- The `DEFAULT_TIMESLOTS` list of `app.py` (also the `Timeslot` literals
of `models.py`). -/
def DEFAULT_TIMESLOTS : List String :=
  ["8:45-9:30", "9:30-10:15", "10:15-11:00", "11:30-12:15", "12:15-13:00"]

/-- One step of the constructor loop of `Schedule.__init__`:
`self._assignments[workshop.timeslot][workshop.identifier] = Assignment(workshop, set(), set())`
on the `defaultdict(dict)` table. -/
def initStep (outer : List (String × List (String × Assignment))) (w : Workshop) :
    List (String × List (String × Assignment)) :=
  alInsert outer w.timeslot
    (alInsert (alGetD outer w.timeslot []) w.identifier
      { workshop := w, students := [], adults := [] })

/-- Constructor of `Schedule`: builds the catalog by dict comprehension
(later duplicate identifiers overwrite earlier ones) and seeds one empty
`Assignment` per workshop at key `(timeslot, identifier)` in a
`defaultdict(dict)`. -/
def Schedule.init (ws : List Workshop) : Schedule :=
  { workshops_by_id := ws.foldl (fun d w => alInsert d w.identifier w) []
    assignments := ws.foldl initStep [] }

/-- Error taxonomy of the engine, carrying the data the Python exception
messages name: `notFound` is the `KeyError` of `get_assignment`,
`conflict` the `ValueError` of `_ensure_unique_timeslot`, and `capacity`
the `ValueError` of `_check_capacity` (which names the workshop, the
audience and the limit). -/
inductive SchedError where
  | notFound (workshop_id : String)
  | conflict (person_id : String)
  | capacity (workshop_name : String) (for_students : Bool) (limit : Int)
  deriving DecidableEq, Repr

/-- Mirrors `Schedule.get_assignment`: `self._assignments[timeslot].get(workshop_id)`,
with `none` standing for the raised `KeyError`. -/
def Schedule.get_assignment (s : Schedule) (timeslot workshop_id : String) :
    Option Assignment :=
  alGet (alGetD s.assignments timeslot []) workshop_id

/-- Mirrors `Schedule._check_capacity`: `some e` when the Python method
would raise, `none` when it passes. -/
def check_capacity (a : Assignment) (for_students : Bool) (quantity : Int) :
    Option SchedError :=
  match (if for_students then a.workshop.capacity_students else a.workshop.capacity_adults) with
  | some limit =>
      if quantity > limit then
        some (.capacity a.workshop.name for_students limit)
      else none
  | none => none

/-- Mirrors the scan of `Schedule._ensure_unique_timeslot`: true exactly
when the Python method would raise, i.e. when the person id is in the
relevant bucket of some assignment of the timeslot. -/
def Schedule.has_person_in_timeslot (s : Schedule) (person_id timeslot : String)
    (forStudents : Bool) : Bool :=
  (alGetD s.assignments timeslot []).any
    (fun kv => decide (person_id ∈ (if forStudents then kv.2.students else kv.2.adults)))

/-- In-place update of one assignment cell, used by the mutators. -/
def Schedule.updateAssignment (s : Schedule) (timeslot workshop_id : String)
    (f : Assignment → Assignment) : Schedule :=
  { s with assignments := alModify s.assignments timeslot (fun inner => alModify inner workshop_id f) }

/-- Mirrors `Schedule.assign_student`: resolve the assignment (`KeyError`
when absent), scan the timeslot for the student (ConflictError), check the
student capacity against `len + 1` (CapacityError), then add. -/
def Schedule.assign_student (s : Schedule) (student_id timeslot workshop_id : String) :
    Except SchedError Schedule :=
  match s.get_assignment timeslot workshop_id with
  | none => .error (.notFound workshop_id)
  | some a =>
    if s.has_person_in_timeslot student_id timeslot true then
      .error (.conflict student_id)
    else
      match check_capacity a true ((a.students.length : Int) + 1) with
      | some e => .error e
      | none =>
          .ok (s.updateAssignment timeslot workshop_id
            (fun x => { x with students := setAdd student_id x.students }))

/-- Mirrors `Schedule.unassign_student`: tolerant removal, total function. -/
def Schedule.unassign_student (s : Schedule) (student_id timeslot workshop_id : String) :
    Schedule :=
  s.updateAssignment timeslot workshop_id
    (fun x => { x with students := setDiscard student_id x.students })

/-- Mirrors `Schedule.assign_adult` (symmetric to `assign_student`). -/
def Schedule.assign_adult (s : Schedule) (adult_id timeslot workshop_id : String) :
    Except SchedError Schedule :=
  match s.get_assignment timeslot workshop_id with
  | none => .error (.notFound workshop_id)
  | some a =>
    if s.has_person_in_timeslot adult_id timeslot false then
      .error (.conflict adult_id)
    else
      match check_capacity a false ((a.adults.length : Int) + 1) with
      | some e => .error e
      | none =>
          .ok (s.updateAssignment timeslot workshop_id
            (fun x => { x with adults := setAdd adult_id x.adults }))

/-- Mirrors `Schedule.unassign_adult`. -/
def Schedule.unassign_adult (s : Schedule) (adult_id timeslot workshop_id : String) :
    Schedule :=
  s.updateAssignment timeslot workshop_id
    (fun x => { x with adults := setDiscard adult_id x.adults })

/-- One engine mutation, identified by its arguments. -/
inductive Op where
  | assignS (student_id timeslot workshop_id : String)
  | assignA (adult_id timeslot workshop_id : String)
  | unassignS (student_id timeslot workshop_id : String)
  | unassignA (adult_id timeslot workshop_id : String)
  deriving DecidableEq, Repr

/-- Effect of one mutation call on the schedule: a raising call leaves the
state as it was (the exception propagates to the caller). -/
def Schedule.applyOp (s : Schedule) : Op → Schedule
  | .assignS sid ts wid =>
      match s.assign_student sid ts wid with
      | .ok s' => s'
      | .error _ => s
  | .assignA aid ts wid =>
      match s.assign_adult aid ts wid with
      | .ok s' => s'
      | .error _ => s
  | .unassignS sid ts wid => s.unassign_student sid ts wid
  | .unassignA aid ts wid => s.unassign_adult aid ts wid

/-- State after a sequence of mutation calls. -/
def Schedule.run (s : Schedule) (ops : List Op) : Schedule :=
  ops.foldl Schedule.applyOp s

/-- One projection record of `Schedule.as_rows`: the row dictionary with
keys Franja, Espai, Taller, Alumnes, Adults, Notes. -/
structure Row where
  franja : String
  espai : String
  taller : String
  alumnes : String
  adults : String
  notes : String
  deriving DecidableEq, Repr

/-- Python tuple comparison `(franja, espai) < (franja, espai)` used as the
sort key of `as_rows`. -/
def rowKeyLt (a b : Row) : Bool :=
  strLt a.franja b.franja || (a.franja == b.franja && strLt a.espai b.espai)

/-- Total preorder on rows induced by the sort key (non-strict
counterpart of `rowKeyLt`). -/
def rowLe (a b : Row) : Bool := !(rowKeyLt b a)

/-- All-or-nothing map over `Option`, modelling a Python loop that raises
on the first failing element. -/
def mapMO (f : α → Option β) : List α → Option (List β)
  | [] => some []
  | x :: xs =>
    match f x, mapMO f xs with
    | some y, some ys => some (y :: ys)
    | _, _ => none

/-- Mirrors `", ".join(directory[identifier].name for identifier in sorted(ids))`;
`none` stands for the `KeyError` raised on the first identifier absent
from the directory. -/
def joinNames (lookupName : String → Option String) (ids : List String) :
    Option String :=
  (mapMO lookupName (sortBy strLe ids)).map (String.intercalate ", ")

/-- All `(timeslot, assignment)` cells, in the iteration order of
`self._assignments.items()` (outer dict order, then inner dict order). -/
def Schedule.flat_assignments (s : Schedule) : List (String × Assignment) :=
  s.assignments.flatMap (fun kv => kv.2.map (fun wa => (kv.1, wa.2)))

/-- Total number of `Assignment` cells of the schedule. -/
def Schedule.total_assignments (s : Schedule) : Nat :=
  s.flat_assignments.length

/-- Row built for one `(timeslot, assignment)` cell by `as_rows`; `none`
when a name lookup raises `KeyError`. -/
def buildRow (students : List (String × Student)) (adults : List (String × Adult))
    (cell : String × Assignment) : Option Row :=
  match joinNames (fun i => (alGet students i).map (·.name)) cell.2.students,
        joinNames (fun i => (alGet adults i).map (·.name)) cell.2.adults with
  | some al, some ad =>
      some { franja := cell.1
             espai := cell.2.workshop.space
             taller := cell.2.workshop.name
             alumnes := al
             adults := ad
             notes := cell.2.workshop.notes.getD "" }
  | _, _ => none

/-- Mirrors `Schedule.as_rows`: build one row per assignment cell in
iteration order, then `rows.sort(key=(Franja, Espai))` (stable). `none`
stands for the `KeyError` raised when an assigned identifier is absent
from the given directory. -/
def Schedule.as_rows (s : Schedule) (students : List (String × Student))
    (adults : List (String × Adult)) : Option (List Row) :=
  (mapMO (buildRow students adults) s.flat_assignments).map (sortBy rowLe)

/-- Python `str.strip()` (whitespace at both ends removed). -/
def pyStrip (s : String) : String :=
  ⟨((s.data.dropWhile Char.isWhitespace).reverse.dropWhile Char.isWhitespace).reverse⟩

/-- Value of a non-empty all-digit character list. -/
def digitsVal (l : List Char) : Option Nat :=
  if l ≠ [] ∧ l.all Char.isDigit then
    some (l.foldl (fun n c => n * 10 + (c.toNat - 48)) 0)
  else none

/-- Python `int(s)` on a decimal string: surrounding whitespace and an
optional sign are accepted, anything else raises (`none`). -/
def pyInt (s : String) : Option Int :=
  match (pyStrip s).data with
  | '-' :: rest => (digitsVal rest).map (fun n => -(n : Int))
  | '+' :: rest => (digitsVal rest).map (fun n => (n : Int))
  | l => (digitsVal l).map (fun n => (n : Int))

/-- Python truthiness of an optional string (`row.get(...)` used in a
condition): `None` and the empty string are falsy. -/
def truthy : Option String → Bool
  | none => false
  | some s => s ≠ ""

/-- One `csv.DictReader` row of the workshops file, field by field;
`none` is a missing value. -/
structure WorkshopCsvRow where
  id : Option String := none
  name : Option String := none
  space : Option String := none
  timeslot : Option String := none
  capacity_students : Option String := none
  capacity_adults : Option String := none
  notes : Option String := none
  deriving DecidableEq, Repr

/-- Mirrors the per-row body of `data_loader.load_workshops`: validate the
timeslot, parse each capacity as `int(field) if row.get(field) else None`,
and build the `Workshop` with stripped text fields and
`notes=row.get("notes") or None`.  `error` stands for the raised
`DataLoaderError` (or the `KeyError`/`TypeError` of a missing required
field, which cannot happen on header-validated input). -/
def load_workshop_row (valid_timeslots : List String) (row : WorkshopCsvRow) :
    Except String Workshop :=
  let raw_timeslot := pyStrip (row.timeslot.getD "")
  if raw_timeslot ∉ valid_timeslots then
    .error "invalid timeslot"
  else
    match row.id, row.name, row.space with
    | some i, some n, some sp =>
      match (if truthy row.capacity_students then
               (pyInt (row.capacity_students.getD "")).map some else some none),
            (if truthy row.capacity_adults then
               (pyInt (row.capacity_adults.getD "")).map some else some none) with
      | some cs, some ca =>
          .ok { identifier := pyStrip i
                name := pyStrip n
                space := pyStrip sp
                timeslot := raw_timeslot
                capacity_students := cs
                capacity_adults := ca
                notes := match row.notes with
                         | some s => if s = "" then none else some s
                         | none => none }
      | _, _ => .error "capacity must be numeric"
    | _, _, _ => .error "missing required field"

/-- Mirrors `data_loader.load_workshops` over a list of parsed CSV rows:
rows are processed in order and the first failing row aborts the load. -/
def load_workshops (valid_timeslots : List String) :
    List WorkshopCsvRow → Except String (List Workshop)
  | [] => .ok []
  | row :: rest =>
    match load_workshop_row valid_timeslots row with
    | .error e => .error e
    | .ok w =>
      match load_workshops valid_timeslots rest with
      | .error e => .error e
      | .ok ws => .ok (w :: ws)

instance {ε α : Type} [DecidableEq ε] [DecidableEq α] : DecidableEq (Except ε α) := fun x y =>
  match x, y with
  | .ok a, .ok b => if h : a = b then isTrue (by rw [h]) else isFalse (by simp [h])
  | .error e, .error f => if h : e = f then isTrue (by rw [h]) else isFalse (by simp [h])
  | .ok _, .error _ => isFalse (by simp)
  | .error _, .ok _ => isFalse (by simp)

/-- Within one timeslot table, no person id sits in the student bucket of
two different assignments. -/
def StudentsDisjoint (inner : List (String × Assignment)) : Prop :=
  inner.Pairwise (fun a b => ∀ p, p ∈ a.2.students → p ∉ b.2.students)

/-- Within one timeslot table, no person id sits in the adult bucket of
two different assignments. -/
def AdultsDisjoint (inner : List (String × Assignment)) : Prop :=
  inner.Pairwise (fun a b => ∀ p, p ∈ a.2.adults → p ∉ b.2.adults)

/-- Structural invariant of a schedule state: outer dict keys are distinct,
every assignment sits under the key equal to its workshop's timeslot, and
the per-timeslot occupant buckets are pairwise disjoint. -/
structure Inv (s : Schedule) : Prop where
  outer_nodup : (s.assignments.map Prod.fst).Nodup
  ts_key : ∀ e ∈ s.assignments, ∀ kv ∈ e.2, kv.2.workshop.timeslot = e.1
  sdis : ∀ e ∈ s.assignments, StudentsDisjoint e.2
  adis : ∀ e ∈ s.assignments, AdultsDisjoint e.2

/-- Number of assignment cells of timeslot `t` whose student bucket
contains `p`. -/
def Schedule.countStudentCells (s : Schedule) (t p : String) : Nat :=
  ((s.flat_assignments).filter
    (fun c => c.2.workshop.timeslot == t && decide (p ∈ c.2.students))).length

/-- Number of assignment cells of timeslot `t` whose adult bucket
contains `p`. -/
def Schedule.countAdultCells (s : Schedule) (t p : String) : Nat :=
  ((s.flat_assignments).filter
    (fun c => c.2.workshop.timeslot == t && decide (p ∈ c.2.adults))).length

/-- The occupant count respects an optional capacity limit
(`len(bucket) <= limit` whenever the limit is set). -/
def capRespected (limit : Option Int) (count : Nat) : Bool :=
  match limit with
  | some l => decide ((count : Int) ≤ l)
  | none => true

/-- Capacity invariant of the spec: every assignment cell respects both of
its workshop's capacity limits. -/
def cap_ok (s : Schedule) : Prop :=
  ∀ c ∈ s.flat_assignments,
    capRespected c.2.workshop.capacity_students c.2.students.length = true ∧
    capRespected c.2.workshop.capacity_adults c.2.adults.length = true

/-- Well-formedness of a partially built assignment table during
construction: distinct outer keys, assignments keyed by their workshop's
timeslot, all buckets empty, every stored workshop drawn from `W`. -/
def InitGood (W : List Workshop) (outer : List (String × List (String × Assignment))) : Prop :=
  (outer.map Prod.fst).Nodup ∧
  (∀ e ∈ outer, ∀ kv ∈ e.2, kv.2.workshop.timeslot = e.1) ∧
  (∀ e ∈ outer, ∀ kv ∈ e.2, kv.2.students = [] ∧ kv.2.adults = [] ∧ kv.2.workshop ∈ W)

/-- Nonnegativity of a workshop's declared capacities (well-formedness of
the loaded catalog). -/
def capsNonneg (w : Workshop) : Bool :=
  (match w.capacity_students with
   | some l => decide (0 ≤ l)
   | none => true) &&
  (match w.capacity_adults with
   | some l => decide (0 ≤ l)
   | none => true)

/-! Helper lemmas about the sorting and association-list primitives. -/

theorem insertBy_perm (le : α → α → Bool) (x : α) (l : List α) :
    List.Perm (insertBy le x l) (x :: l) := by
  induction l with
  | nil => simp [insertBy]
  | cons y ys ih =>
    by_cases h : le y x = true
    · simp only [insertBy, h, if_true]
      exact (ih.cons y).trans (List.Perm.swap x y ys)
    · simp [insertBy, h]

theorem mem_insertBy {le : α → α → Bool} {x z : α} {l : List α} :
    z ∈ insertBy le x l ↔ z = x ∨ z ∈ l := by
  rw [(insertBy_perm le x l).mem_iff, List.mem_cons]

theorem pairwise_insertBy {le : α → α → Bool}
    (htot : ∀ a b, le a b = true ∨ le b a = true)
    (htrans : ∀ a b c, le a b = true → le b c = true → le a c = true)
    (x : α) {l : List α} (h : l.Pairwise (fun a b => le a b = true)) :
    (insertBy le x l).Pairwise (fun a b => le a b = true) := by
  induction l with
  | nil => simp [insertBy]
  | cons y ys ih =>
    rcases List.pairwise_cons.mp h with ⟨hy, hys⟩
    by_cases hle : le y x = true
    · simp only [insertBy, hle, if_true]
      refine List.pairwise_cons.mpr ⟨?_, ih hys⟩
      intro z hz
      rcases mem_insertBy.mp hz with rfl | hzys
      · exact hle
      · exact hy z hzys
    · have hxy : le x y = true := (htot y x).resolve_left hle
      simp only [insertBy, hle, if_false]
      refine List.pairwise_cons.mpr ⟨?_, h⟩
      intro z hz
      rcases List.mem_cons.mp hz with rfl | hzys
      · exact hxy
      · exact htrans x y z hxy (hy z hzys)

theorem sortBy_foldl_perm (le : α → α → Bool) (l acc : List α) :
    List.Perm (List.foldl (fun a x => insertBy le x a) acc l) (acc ++ l) := by
  induction l generalizing acc with
  | nil => simp
  | cons x xs ih =>
    have h1 := ih (insertBy le x acc)
    have h2 : List.Perm (insertBy le x acc ++ xs) (x :: (acc ++ xs)) :=
      (insertBy_perm le x acc).append_right xs
    have h3 : List.Perm (x :: (acc ++ xs)) (acc ++ x :: xs) := List.perm_middle.symm
    simpa using (h1.trans h2).trans h3

theorem sortBy_perm (le : α → α → Bool) (l : List α) :
    List.Perm (sortBy le l) l := by
  simpa using sortBy_foldl_perm le l []

theorem mem_sortBy {le : α → α → Bool} {z : α} {l : List α} :
    z ∈ sortBy le l ↔ z ∈ l :=
  (sortBy_perm le l).mem_iff

theorem sortBy_pairwise {le : α → α → Bool}
    (htot : ∀ a b, le a b = true ∨ le b a = true)
    (htrans : ∀ a b c, le a b = true → le b c = true → le a c = true)
    (l : List α) : (sortBy le l).Pairwise (fun a b => le a b = true) := by
  suffices h : ∀ (l acc : List α), acc.Pairwise (fun a b => le a b = true) →
      (List.foldl (fun a x => insertBy le x a) acc l).Pairwise (fun a b => le a b = true) by
    exact h l [] (List.Pairwise.nil)
  intro l
  induction l with
  | nil => intro acc hacc; simpa using hacc
  | cons x xs ih =>
    intro acc hacc
    exact ih (insertBy le x acc) (pairwise_insertBy htot htrans x hacc)

theorem alGet_alInsert_self {α : Type} (l : List (String × α)) (k : String) (v : α) :
    alGet (alInsert l k v) k = some v := by
  induction l with
  | nil => simp [alInsert, alGet]
  | cons kv rest ih =>
    by_cases h : kv.1 = k
    · simp [alInsert, alGet, h]
    · simp [alInsert, alGet, h, ih]

theorem alGet_alInsert_ne {α : Type} {l : List (String × α)} {k k' : String} (v : α)
    (h : k' ≠ k) : alGet (alInsert l k v) k' = alGet l k' := by
  have hk : k ≠ k' := Ne.symm h
  induction l with
  | nil => simp [alInsert, alGet, hk]
  | cons kv rest ih =>
    obtain ⟨k0, v0⟩ := kv
    by_cases h1 : k0 = k
    · simp [alInsert, alGet, h1, hk]
    · by_cases h2 : k0 = k'
      · simp [alInsert, alGet, h1, h2, h]
      · simp [alInsert, alGet, h1, h2, ih]

theorem alGet_mem {α : Type} {l : List (String × α)} {k : String} {v : α}
    (h : alGet l k = some v) : (k, v) ∈ l := by
  induction l with
  | nil => simp [alGet] at h
  | cons kv rest ih =>
    obtain ⟨k0, v0⟩ := kv
    by_cases hk : k0 = k
    · simp only [alGet, hk, if_true, Option.some.injEq] at h
      subst hk
      subst h
      exact List.mem_cons_self _ _
    · simp only [alGet, hk, if_false] at h
      exact List.mem_cons_of_mem _ (ih h)

theorem alGet_eq_none {α : Type} {l : List (String × α)} {k : String} :
    alGet l k = none ↔ k ∉ l.map Prod.fst := by
  induction l with
  | nil => simp [alGet]
  | cons kv rest ih =>
    obtain ⟨k0, v0⟩ := kv
    by_cases hk : k0 = k
    · simp [alGet, hk]
    · simp [alGet, hk, ih, Ne.symm hk]

theorem alGet_of_nodup_mem {α : Type} {l : List (String × α)} {k : String} {v : α}
    (hnd : (l.map Prod.fst).Nodup) (h : (k, v) ∈ l) : alGet l k = some v := by
  induction l with
  | nil => simp at h
  | cons kv rest ih =>
    obtain ⟨k0, v0⟩ := kv
    rcases List.mem_cons.mp h with heq | hmem
    · rw [Prod.mk.injEq] at heq
      simp [alGet, heq.1.symm, heq.2.symm]
    · have hk : k0 ≠ k := by
        intro hh
        have hin : k ∈ rest.map Prod.fst := List.mem_map.mpr ⟨(k, v), hmem, rfl⟩
        rw [List.map_cons, List.nodup_cons, hh] at hnd
        exact hnd.1 hin
      simp only [alGet, hk, if_false]
      exact ih (List.nodup_cons.mp (by simpa using hnd)).2 hmem

theorem alModify_fst {α : Type} (l : List (String × α)) (k : String) (f : α → α) :
    (alModify l k f).map Prod.fst = l.map Prod.fst := by
  induction l with
  | nil => simp [alModify]
  | cons kv rest ih =>
    by_cases hk : kv.1 = k
    · simp [alModify, hk]
    · simp [alModify, hk, ih]

theorem alGet_alModify_self {α : Type} (l : List (String × α)) (k : String) (f : α → α) :
    alGet (alModify l k f) k = (alGet l k).map f := by
  induction l with
  | nil => simp [alModify, alGet]
  | cons kv rest ih =>
    by_cases hk : kv.1 = k
    · simp [alModify, alGet, hk]
    · simp [alModify, alGet, hk, ih]

theorem alGet_alModify_ne {α : Type} {l : List (String × α)} {k k' : String} (f : α → α)
    (h : k' ≠ k) : alGet (alModify l k f) k' = alGet l k' := by
  induction l with
  | nil => simp [alModify]
  | cons kv rest ih =>
    obtain ⟨k0, v0⟩ := kv
    by_cases h1 : k0 = k
    · simp [alModify, alGet, h1, Ne.symm h]
    · by_cases h2 : k0 = k'
      · simp [alModify, alGet, h1, h2, h]
      · simp [alModify, alGet, h1, h2, ih]

theorem mem_alModify {α : Type} {l : List (String × α)} {k : String} {f : α → α} {b : String × α}
    (hb : b ∈ alModify l k f) : b ∈ l ∨ ∃ v, alGet l k = some v ∧ b = (k, f v) := by
  induction l with
  | nil => simp [alModify] at hb
  | cons kv rest ih =>
    obtain ⟨k0, v0⟩ := kv
    by_cases hk : k0 = k
    · subst hk
      simp only [alModify, if_pos rfl] at hb
      rcases List.mem_cons.mp hb with rfl | hmem
      · right
        exact ⟨v0, by simp [alGet], rfl⟩
      · left
        exact List.mem_cons_of_mem _ hmem
    · simp only [alModify, hk, if_false] at hb
      rcases List.mem_cons.mp hb with rfl | hmem
      · left
        exact List.mem_cons_self _ _
      · rcases ih hmem with h | ⟨v, hv, rfl⟩
        · exact Or.inl (List.mem_cons_of_mem _ h)
        · exact Or.inr ⟨v, by simp [alGet, hk, hv], rfl⟩

theorem alModify_eq_self {α : Type} {l : List (String × α)} {k : String} {f : α → α}
    (h : ∀ v, alGet l k = some v → f v = v) : alModify l k f = l := by
  induction l with
  | nil => simp [alModify]
  | cons kv rest ih =>
    obtain ⟨k0, v0⟩ := kv
    by_cases hk : k0 = k
    · have hfix : f v0 = v0 := h v0 (by simp [alGet, hk])
      simp [alModify, hk, hfix]
    · simp only [alModify, hk, if_false, List.cons.injEq, true_and]
      exact ih (fun v hv => h v (by simp [alGet, hk, hv]))

theorem pairwise_alModify {α : Type} {R : (String × α) → (String × α) → Prop}
    {l : List (String × α)} {k : String} {f : α → α}
    (hf : ∀ a b, a ∈ l → b ∈ l → R a b → R (a.1, f a.2) b ∧ R a (b.1, f b.2))
    (h : l.Pairwise R) : (alModify l k f).Pairwise R := by
  induction l with
  | nil => simp [alModify]
  | cons kv rest ih =>
    rcases List.pairwise_cons.mp h with ⟨hhead, htail⟩
    obtain ⟨k0, v0⟩ := kv
    by_cases hk : k0 = k
    · subst hk
      simp only [alModify, if_pos rfl]
      refine List.pairwise_cons.mpr ⟨?_, htail⟩
      intro b hb
      exact (hf (k0, v0) b (List.mem_cons_self _ _)
        (List.mem_cons_of_mem _ hb) (hhead b hb)).1
    · simp only [alModify, hk, if_false]
      refine List.pairwise_cons.mpr ⟨?_, ?_⟩
      · intro b hb
        rcases mem_alModify hb with hmem | ⟨v, hv, rfl⟩
        · exact hhead b hmem
        · have hvmem : (k, v) ∈ rest := alGet_mem hv
          exact (hf (k0, v0) (k, v) (List.mem_cons_self _ _)
            (List.mem_cons_of_mem _ hvmem) (hhead (k, v) hvmem)).2
      · refine ih (fun a b ha hb hr => hf a b ?_ ?_ hr) htail
        · exact List.mem_cons_of_mem _ ha
        · exact List.mem_cons_of_mem _ hb


/-! Helper lemmas about the schedule operations. -/

theorem mem_setAdd {x z : String} {l : List String} :
    z ∈ setAdd x l ↔ z = x ∨ z ∈ l := by
  unfold setAdd
  by_cases h : x ∈ l
  · simp only [h, if_true]
    constructor
    · exact Or.inr
    · rintro (rfl | hz)
      · exact h
      · exact hz
  · simp [h, List.mem_append, or_comm]

theorem length_setAdd_of_not_mem {x : String} {l : List String} (h : x ∉ l) :
    (setAdd x l).length = l.length + 1 := by
  simp [setAdd, h]

theorem mem_setDiscard {x z : String} {l : List String} (h : z ∈ setDiscard x l) :
    z ∈ l := by
  exact (List.mem_filter.mp h).1

theorem length_setDiscard_le (x : String) (l : List String) :
    (setDiscard x l).length ≤ l.length :=
  List.length_filter_le _ l

theorem setDiscard_of_not_mem {x : String} {l : List String} (h : x ∉ l) :
    setDiscard x l = l := by
  unfold setDiscard
  apply List.filter_eq_self.mpr
  intro y hy
  simp only [bne_iff_ne, ne_eq]
  rintro rfl
  exact h hy

theorem get_assignment_some_inner {s : Schedule} {ts wid : String} {a : Assignment}
    (h : s.get_assignment ts wid = some a) :
    ∃ inner, alGet s.assignments ts = some inner ∧ alGet inner wid = some a := by
  unfold Schedule.get_assignment alGetD at h
  cases hts : alGet s.assignments ts with
  | none => rw [hts] at h; simp [alGet] at h
  | some inner => rw [hts] at h; exact ⟨inner, rfl, h⟩

theorem not_in_timeslot {s : Schedule} {pid ts : String} {b : Bool}
    (h : s.has_person_in_timeslot pid ts b = false) :
    ∀ kv ∈ alGetD s.assignments ts [], pid ∉ (if b then kv.2.students else kv.2.adults) := by
  intro kv hkv
  have hall := List.any_eq_false.mp h kv hkv
  simpa using hall

theorem assign_student_ok {s : Schedule} {sid ts wid : String} {s' : Schedule}
    (h : s.assign_student sid ts wid = .ok s') :
    ∃ a, s.get_assignment ts wid = some a ∧
      s.has_person_in_timeslot sid ts true = false ∧
      check_capacity a true ((a.students.length : Int) + 1) = none ∧
      s' = s.updateAssignment ts wid
        (fun x => { x with students := setAdd sid x.students }) := by
  unfold Schedule.assign_student at h
  cases hget : s.get_assignment ts wid with
  | none => rw [hget] at h; simp at h
  | some a =>
    rw [hget] at h
    dsimp only at h
    by_cases hp : s.has_person_in_timeslot sid ts true = true
    · rw [if_pos hp] at h; simp at h
    · rw [if_neg hp] at h
      cases hc : check_capacity a true ((a.students.length : Int) + 1) with
      | some e => rw [hc] at h; simp at h
      | none =>
        rw [hc] at h
        refine ⟨a, rfl, by simpa using hp, hc, ?_⟩
        injection h with h'
        exact h'.symm

theorem assign_adult_ok {s : Schedule} {aid ts wid : String} {s' : Schedule}
    (h : s.assign_adult aid ts wid = .ok s') :
    ∃ a, s.get_assignment ts wid = some a ∧
      s.has_person_in_timeslot aid ts false = false ∧
      check_capacity a false ((a.adults.length : Int) + 1) = none ∧
      s' = s.updateAssignment ts wid
        (fun x => { x with adults := setAdd aid x.adults }) := by
  unfold Schedule.assign_adult at h
  cases hget : s.get_assignment ts wid with
  | none => rw [hget] at h; simp at h
  | some a =>
    rw [hget] at h
    dsimp only at h
    by_cases hp : s.has_person_in_timeslot aid ts false = true
    · rw [if_pos hp] at h; simp at h
    · rw [if_neg hp] at h
      cases hc : check_capacity a false ((a.adults.length : Int) + 1) with
      | some e => rw [hc] at h; simp at h
      | none =>
        rw [hc] at h
        refine ⟨a, rfl, by simpa using hp, hc, ?_⟩
        injection h with h'
        exact h'.symm

theorem mem_flat_intro {s : Schedule} {e : String × List (String × Assignment)}
    {kv : String × Assignment} (he : e ∈ s.assignments) (hkv : kv ∈ e.2) :
    (e.1, kv.2) ∈ s.flat_assignments := by
  unfold Schedule.flat_assignments
  exact List.mem_flatMap.mpr ⟨e, he, List.mem_map.mpr ⟨kv, hkv, rfl⟩⟩

theorem mem_flat_elim {s : Schedule} {c : String × Assignment}
    (hc : c ∈ s.flat_assignments) :
    ∃ e ∈ s.assignments, ∃ kv ∈ e.2, c = (e.1, kv.2) := by
  unfold Schedule.flat_assignments at hc
  rcases List.mem_flatMap.mp hc with ⟨e, he, hmem⟩
  rcases List.mem_map.mp hmem with ⟨kv, hkv, rfl⟩
  exact ⟨e, he, kv, hkv, rfl⟩

theorem mem_flat_update {s : Schedule} {ts wid : String} {f : Assignment → Assignment}
    {c : String × Assignment}
    (hc : c ∈ (s.updateAssignment ts wid f).flat_assignments) :
    c ∈ s.flat_assignments ∨
      ∃ a, s.get_assignment ts wid = some a ∧ c = (ts, f a) := by
  rcases mem_flat_elim hc with ⟨e, he, kv, hkv, rfl⟩
  unfold Schedule.updateAssignment at he
  dsimp only at he
  rcases mem_alModify he with hmem | ⟨inner, hinner, rfl⟩
  · exact Or.inl (mem_flat_intro hmem hkv)
  · rcases mem_alModify hkv with hmem2 | ⟨a, ha, rfl⟩
    · have hin : (ts, kv.2) ∈ s.flat_assignments :=
        mem_flat_intro (alGet_mem hinner) hmem2
      exact Or.inl hin
    · right
      refine ⟨a, ?_, rfl⟩
      unfold Schedule.get_assignment alGetD
      rw [hinner]
      exact ha

theorem get_assignment_updateAssignment_self {s : Schedule} {ts wid : String}
    {a : Assignment} (f : Assignment → Assignment)
    (h : s.get_assignment ts wid = some a) :
    (s.updateAssignment ts wid f).get_assignment ts wid = some (f a) := by
  rcases get_assignment_some_inner h with ⟨inner, hts, hwid⟩
  unfold Schedule.updateAssignment Schedule.get_assignment alGetD
  rw [alGet_alModify_self, hts]
  show alGet (alModify inner wid f) wid = some (f a)
  rw [alGet_alModify_self, hwid]
  rfl

theorem get_assignment_updateAssignment_other {s : Schedule} {ts wid t w : String}
    (f : Assignment → Assignment) (h : ¬(t = ts ∧ w = wid)) :
    (s.updateAssignment ts wid f).get_assignment t w = s.get_assignment t w := by
  unfold Schedule.updateAssignment Schedule.get_assignment alGetD
  by_cases hts : t = ts
  · subst hts
    have hw : w ≠ wid := fun hw => h ⟨rfl, hw⟩
    rw [alGet_alModify_self]
    cases hinner : alGet s.assignments t with
    | none => rfl
    | some inner =>
      dsimp only [Option.map_some, Option.getD_some]
      exact alGet_alModify_ne f hw
  · rw [alGet_alModify_ne _ hts]

theorem inv_updateAssignment_add_student {s : Schedule} {sid ts wid : String}
    (hinv : Inv s) (hfresh : s.has_person_in_timeslot sid ts true = false) :
    Inv (s.updateAssignment ts wid
      (fun x => { x with students := setAdd sid x.students })) := by
  set f : Assignment → Assignment :=
    fun x => { x with students := setAdd sid x.students } with hf
  have hWork : ∀ x, (f x).workshop = x.workshop := fun x => rfl
  have hAdult : ∀ x, (f x).adults = x.adults := fun x => rfl
  constructor
  · show ((alModify s.assignments ts _).map Prod.fst).Nodup
    rw [alModify_fst]
    exact hinv.outer_nodup
  · intro e he kv hkv
    rcases mem_alModify he with hmem | ⟨inner, hinner, rfl⟩
    · exact hinv.ts_key e hmem kv hkv
    · rcases mem_alModify hkv with hmem2 | ⟨a, ha, rfl⟩
      · exact hinv.ts_key (ts, inner) (alGet_mem hinner) kv hmem2
      · exact hinv.ts_key (ts, inner) (alGet_mem hinner) (wid, a) (alGet_mem ha)
  · intro e he
    rcases mem_alModify he with hmem | ⟨inner, hinner, rfl⟩
    · exact hinv.sdis e hmem
    · have hflist : alGetD s.assignments ts [] = inner := by
        unfold alGetD; rw [hinner]; rfl
      have hfr := not_in_timeslot hfresh
      rw [hflist] at hfr
      refine pairwise_alModify ?_ (hinv.sdis (ts, inner) (alGet_mem hinner))
      intro a b ha hb hr
      constructor
      · intro p hp
        rcases mem_setAdd.mp hp with rfl | hpa
        · have := hfr b hb
          simpa using this
        · exact hr p hpa
      · intro p hp hpb
        rcases mem_setAdd.mp hpb with h1 | h1
        · subst h1
          have := hfr a ha
          simp only [if_true] at this
          exact this hp
        · exact hr p hp h1
  · intro e he
    rcases mem_alModify he with hmem | ⟨inner, hinner, rfl⟩
    · exact hinv.adis e hmem
    · refine pairwise_alModify ?_ (hinv.adis (ts, inner) (alGet_mem hinner))
      intro a b ha hb hr
      exact ⟨hr, hr⟩

theorem inv_updateAssignment_add_adult {s : Schedule} {aid ts wid : String}
    (hinv : Inv s) (hfresh : s.has_person_in_timeslot aid ts false = false) :
    Inv (s.updateAssignment ts wid
      (fun x => { x with adults := setAdd aid x.adults })) := by
  constructor
  · show ((alModify s.assignments ts _).map Prod.fst).Nodup
    rw [alModify_fst]
    exact hinv.outer_nodup
  · intro e he kv hkv
    rcases mem_alModify he with hmem | ⟨inner, hinner, rfl⟩
    · exact hinv.ts_key e hmem kv hkv
    · rcases mem_alModify hkv with hmem2 | ⟨a, ha, rfl⟩
      · exact hinv.ts_key (ts, inner) (alGet_mem hinner) kv hmem2
      · exact hinv.ts_key (ts, inner) (alGet_mem hinner) (wid, a) (alGet_mem ha)
  · intro e he
    rcases mem_alModify he with hmem | ⟨inner, hinner, rfl⟩
    · exact hinv.sdis e hmem
    · refine pairwise_alModify ?_ (hinv.sdis (ts, inner) (alGet_mem hinner))
      intro a b ha hb hr
      exact ⟨hr, hr⟩
  · intro e he
    rcases mem_alModify he with hmem | ⟨inner, hinner, rfl⟩
    · exact hinv.adis e hmem
    · have hflist : alGetD s.assignments ts [] = inner := by
        unfold alGetD; rw [hinner]; rfl
      have hfr := not_in_timeslot hfresh
      rw [hflist] at hfr
      refine pairwise_alModify ?_ (hinv.adis (ts, inner) (alGet_mem hinner))
      intro a b ha hb hr
      constructor
      · intro p hp
        rcases mem_setAdd.mp hp with rfl | hpa
        · have := hfr b hb
          simpa using this
        · exact hr p hpa
      · intro p hp hpb
        rcases mem_setAdd.mp hpb with h1 | h1
        · subst h1
          have := hfr a ha
          simp only [if_false] at this
          exact this hp
        · exact hr p hp h1

theorem inv_updateAssignment_discard {s : Schedule} {ts wid : String}
    {f : Assignment → Assignment}
    (hW : ∀ x, (f x).workshop = x.workshop)
    (hS : ∀ x p, p ∈ (f x).students → p ∈ x.students)
    (hA : ∀ x p, p ∈ (f x).adults → p ∈ x.adults)
    (hinv : Inv s) : Inv (s.updateAssignment ts wid f) := by
  constructor
  · show ((alModify s.assignments ts _).map Prod.fst).Nodup
    rw [alModify_fst]
    exact hinv.outer_nodup
  · intro e he kv hkv
    rcases mem_alModify he with hmem | ⟨inner, hinner, rfl⟩
    · exact hinv.ts_key e hmem kv hkv
    · rcases mem_alModify hkv with hmem2 | ⟨a, ha, rfl⟩
      · exact hinv.ts_key (ts, inner) (alGet_mem hinner) kv hmem2
      · rw [hW a]
        exact hinv.ts_key (ts, inner) (alGet_mem hinner) (wid, a) (alGet_mem ha)
  · intro e he
    rcases mem_alModify he with hmem | ⟨inner, hinner, rfl⟩
    · exact hinv.sdis e hmem
    · refine pairwise_alModify ?_ (hinv.sdis (ts, inner) (alGet_mem hinner))
      intro a b ha hb hr
      constructor
      · intro p hp
        exact hr p (hS a.2 p hp)
      · intro p hp hpb
        exact hr p hp (hS b.2 p hpb)
  · intro e he
    rcases mem_alModify he with hmem | ⟨inner, hinner, rfl⟩
    · exact hinv.adis e hmem
    · refine pairwise_alModify ?_ (hinv.adis (ts, inner) (alGet_mem hinner))
      intro a b ha hb hr
      constructor
      · intro p hp
        exact hr p (hA a.2 p hp)
      · intro p hp hpb
        exact hr p hp (hA b.2 p hpb)

theorem inv_applyOp {s : Schedule} (hinv : Inv s) (op : Op) :
    Inv (s.applyOp op) := by
  cases op with
  | assignS sid ts wid =>
    show Inv (match s.assign_student sid ts wid with
              | .ok s' => s'
              | .error _ => s)
    cases h : s.assign_student sid ts wid with
    | error e => exact hinv
    | ok s' =>
      rcases assign_student_ok h with ⟨a, _, hfresh, _, rfl⟩
      exact inv_updateAssignment_add_student hinv hfresh
  | assignA aid ts wid =>
    show Inv (match s.assign_adult aid ts wid with
              | .ok s' => s'
              | .error _ => s)
    cases h : s.assign_adult aid ts wid with
    | error e => exact hinv
    | ok s' =>
      rcases assign_adult_ok h with ⟨a, _, hfresh, _, rfl⟩
      exact inv_updateAssignment_add_adult hinv hfresh
  | unassignS sid ts wid =>
    exact inv_updateAssignment_discard (fun x => rfl)
      (fun x p hp => mem_setDiscard hp) (fun x p hp => hp) hinv
  | unassignA aid ts wid =>
    exact inv_updateAssignment_discard (fun x => rfl)
      (fun x p hp => hp) (fun x p hp => mem_setDiscard hp) hinv

theorem inv_run {s : Schedule} (hinv : Inv s) (ops : List Op) :
    Inv (s.run ops) := by
  induction ops generalizing s with
  | nil => exact hinv
  | cons op rest ih => exact ih (inv_applyOp hinv op)

theorem mem_alInsert {α : Type} {l : List (String × α)} {k : String} {v : α}
    {b : String × α} (hb : b ∈ alInsert l k v) : b ∈ l ∨ b = (k, v) := by
  induction l with
  | nil => simpa [alInsert] using hb
  | cons kv rest ih =>
    obtain ⟨k0, v0⟩ := kv
    by_cases hk : k0 = k
    · subst hk
      simp only [alInsert, if_pos rfl] at hb
      rcases List.mem_cons.mp hb with rfl | hmem
      · exact Or.inr rfl
      · exact Or.inl (List.mem_cons_of_mem _ hmem)
    · simp only [alInsert, hk, if_false] at hb
      rcases List.mem_cons.mp hb with rfl | hmem
      · exact Or.inl (List.mem_cons_self _ _)
      · rcases ih hmem with h | h
        · exact Or.inl (List.mem_cons_of_mem _ h)
        · exact Or.inr h

theorem alInsert_fst_of_mem {α : Type} {l : List (String × α)} {k : String} (v : α)
    (h : k ∈ l.map Prod.fst) : (alInsert l k v).map Prod.fst = l.map Prod.fst := by
  induction l with
  | nil => simp at h
  | cons kv rest ih =>
    obtain ⟨k0, v0⟩ := kv
    by_cases hk : k0 = k
    · subst hk
      simp [alInsert]
    · simp only [List.map_cons, List.mem_cons] at h
      rcases h with h | h
      · exact absurd h.symm hk
      · simp [alInsert, hk, ih h]

theorem alInsert_fst_of_not_mem {α : Type} {l : List (String × α)} {k : String} (v : α)
    (h : k ∉ l.map Prod.fst) : (alInsert l k v).map Prod.fst = l.map Prod.fst ++ [k] := by
  induction l with
  | nil => simp [alInsert]
  | cons kv rest ih =>
    obtain ⟨k0, v0⟩ := kv
    simp only [List.map_cons, List.mem_cons] at h
    push_neg at h
    have hk : k0 ≠ k := fun hh => h.1 hh.symm
    simp [alInsert, hk, ih h.2]

theorem alInsert_fst_nodup {α : Type} {l : List (String × α)} {k : String} (v : α)
    (h : (l.map Prod.fst).Nodup) : ((alInsert l k v).map Prod.fst).Nodup := by
  by_cases hk : k ∈ l.map Prod.fst
  · rw [alInsert_fst_of_mem v hk]
    exact h
  · rw [alInsert_fst_of_not_mem v hk]
    simpa using List.Nodup.append h (by simp) (by simpa using hk)

theorem pairwise_of_forall_mem_pair {α : Type} {R : α → α → Prop} {l : List α}
    (h : ∀ a ∈ l, ∀ b ∈ l, R a b) : l.Pairwise R := by
  induction l with
  | nil => exact List.Pairwise.nil
  | cons x xs ih =>
    refine List.pairwise_cons.mpr ⟨?_, ?_⟩
    · intro b hb
      exact h x (List.mem_cons_self _ _) b (List.mem_cons_of_mem _ hb)
    · exact ih (fun a ha b hb =>
        h a (List.mem_cons_of_mem _ ha) b (List.mem_cons_of_mem _ hb))

theorem initStep_good {W : List Workshop} {outer : List (String × List (String × Assignment))}
    (hg : InitGood W outer) {w : Workshop} (hw : w ∈ W) :
    InitGood W (initStep outer w) := by
  obtain ⟨hnd, hts, hempty⟩ := hg
  refine ⟨alInsert_fst_nodup _ hnd, ?_, ?_⟩
  · intro e he kv hkv
    rcases mem_alInsert he with hmem | rfl
    · exact hts e hmem kv hkv
    · rcases mem_alInsert hkv with hmem2 | rfl
      · cases hget : alGet outer w.timeslot with
        | none =>
          unfold alGetD at hmem2
          rw [hget] at hmem2
          simp at hmem2
        | some inner =>
          unfold alGetD at hmem2
          rw [hget] at hmem2
          exact hts (w.timeslot, inner) (alGet_mem hget) kv hmem2
      · rfl
  · intro e he kv hkv
    rcases mem_alInsert he with hmem | rfl
    · exact hempty e hmem kv hkv
    · rcases mem_alInsert hkv with hmem2 | rfl
      · cases hget : alGet outer w.timeslot with
        | none =>
          unfold alGetD at hmem2
          rw [hget] at hmem2
          simp at hmem2
        | some inner =>
          unfold alGetD at hmem2
          rw [hget] at hmem2
          exact hempty (w.timeslot, inner) (alGet_mem hget) kv hmem2
      · exact ⟨rfl, rfl, hw⟩

theorem initFold_good {W : List Workshop} :
    ∀ (ws : List Workshop) (outer : List (String × List (String × Assignment))),
      InitGood W outer → (∀ w ∈ ws, w ∈ W) →
      InitGood W (ws.foldl initStep outer) := by
  intro ws
  induction ws with
  | nil => intro outer hg _; simpa using hg
  | cons w rest ih =>
    intro outer hg hmem
    simp only [List.foldl_cons]
    exact ih (initStep outer w) (initStep_good hg (hmem w (List.mem_cons_self _ _)))
      (fun x hx => hmem x (List.mem_cons_of_mem _ hx))

theorem init_good (ws : List Workshop) : InitGood ws (Schedule.init ws).assignments := by
  exact initFold_good ws [] ⟨by simp, by simp, by simp⟩ (fun w hw => hw)

theorem init_inv (ws : List Workshop) : Inv (Schedule.init ws) := by
  obtain ⟨hnd, hts, hempty⟩ := init_good ws
  refine ⟨hnd, hts, ?_, ?_⟩
  · intro e he
    apply pairwise_of_forall_mem_pair
    intro a ha b hb p hp
    rw [(hempty e he a ha).1] at hp
    simp at hp
  · intro e he
    apply pairwise_of_forall_mem_pair
    intro a ha b hb p hp
    rw [(hempty e he a ha).2.1] at hp
    simp at hp

theorem filter_length_le_one_of_pairwise {α : Type} {l : List α} {Q : α → Bool}
    (h : l.Pairwise (fun a b => ¬(Q a = true ∧ Q b = true))) :
    (l.filter Q).length ≤ 1 := by
  induction l with
  | nil => simp
  | cons x xs ih =>
    rcases List.pairwise_cons.mp h with ⟨hx, hxs⟩
    by_cases hQ : Q x = true
    · have hz : xs.filter Q = [] := by
        apply List.filter_eq_nil_iff.mpr
        intro b hb hQb
        exact hx b hb ⟨hQ, hQb⟩
      simp [List.filter_cons, hQ, hz]
    · simp only [List.filter_cons, hQ, if_false]
      exact ih hxs

theorem count_aux (P : Assignment → Bool) (t : String) :
    ∀ (l : List (String × List (String × Assignment))),
      (l.map Prod.fst).Nodup →
      (∀ e ∈ l, ∀ kv ∈ e.2, kv.2.workshop.timeslot = e.1) →
      (∀ e ∈ l, e.2.Pairwise (fun a b => ¬(P a.2 = true ∧ P b.2 = true))) →
      ((l.flatMap (fun kv => kv.2.map (fun wa => (kv.1, wa.2)))).filter
        (fun c => c.2.workshop.timeslot == t && P c.2)).length ≤ 1 := by
  intro l
  induction l with
  | nil => simp
  | cons e rest ih =>
    intro hnd hts hdis
    obtain ⟨ts0, inner⟩ := e
    rw [List.map_cons, List.nodup_cons] at hnd
    simp only [List.flatMap_cons, List.filter_append, List.length_append]
    by_cases hts0 : ts0 = t
    · subst hts0
      have hrest : ((rest.flatMap (fun kv => kv.2.map (fun wa => (kv.1, wa.2)))).filter
          (fun c => c.2.workshop.timeslot == ts0 && P c.2)) = [] := by
        apply List.filter_eq_nil_iff.mpr
        intro c hc
        rcases List.mem_flatMap.mp hc with ⟨e2, he2, hc2⟩
        rcases List.mem_map.mp hc2 with ⟨kv, hkv, rfl⟩
        have h1 : kv.2.workshop.timeslot = e2.1 :=
          hts e2 (List.mem_cons_of_mem _ he2) kv hkv
        have h2 : e2.1 ≠ ts0 := by
          intro hh
          apply hnd.1
          rw [← hh]
          exact List.mem_map.mpr ⟨e2, he2, rfl⟩
        simp [h1, h2]
      rw [hrest]
      simp only [List.length_nil, Nat.add_zero]
      have hpair : (inner.map (fun wa => (ts0, wa.2))).Pairwise
          (fun a b => ¬((fun c => c.2.workshop.timeslot == ts0 && P c.2) a = true ∧
                        (fun c => c.2.workshop.timeslot == ts0 && P c.2) b = true)) := by
        rw [List.pairwise_map]
        refine (hdis (ts0, inner) (List.mem_cons_self _ _)).imp ?_
        intro a b hab ⟨ha, hb⟩
        rw [Bool.and_eq_true] at ha hb
        exact hab ⟨ha.2, hb.2⟩
      exact filter_length_le_one_of_pairwise hpair
    · have hinner : ((inner.map (fun wa => (ts0, wa.2))).filter
          (fun c => c.2.workshop.timeslot == t && P c.2)) = [] := by
        apply List.filter_eq_nil_iff.mpr
        intro c hc
        rcases List.mem_map.mp hc with ⟨kv, hkv, rfl⟩
        have h1 : kv.2.workshop.timeslot = ts0 :=
          hts (ts0, inner) (List.mem_cons_self _ _) kv hkv
        simp [h1, hts0]
      rw [hinner]
      simp only [List.length_nil, Nat.zero_add]
      exact ih hnd.2 (fun e2 he2 => hts e2 (List.mem_cons_of_mem _ he2))
        (fun e2 he2 => hdis e2 (List.mem_cons_of_mem _ he2))

theorem countStudentCells_le_one {s : Schedule} (hinv : Inv s) (t p : String) :
    s.countStudentCells t p ≤ 1 := by
  apply count_aux (fun a => decide (p ∈ a.students)) t s.assignments hinv.outer_nodup hinv.ts_key
  intro e he
  refine (hinv.sdis e he).imp ?_
  intro a b hab ⟨ha, hb⟩
  exact hab p (of_decide_eq_true ha) (of_decide_eq_true hb)

theorem countAdultCells_le_one {s : Schedule} (hinv : Inv s) (t p : String) :
    s.countAdultCells t p ≤ 1 := by
  apply count_aux (fun a => decide (p ∈ a.adults)) t s.assignments hinv.outer_nodup hinv.ts_key
  intro e he
  refine (hinv.adis e he).imp ?_
  intro a b hab ⟨ha, hb⟩
  exact hab p (of_decide_eq_true ha) (of_decide_eq_true hb)

theorem check_capacity_none {a : Assignment} {b : Bool} {q : Int}
    (h : check_capacity a b q = none) :
    ∀ l, (if b then a.workshop.capacity_students else a.workshop.capacity_adults) = some l →
      q ≤ l := by
  intro l hl
  unfold check_capacity at h
  rw [hl] at h
  by_contra hq
  have h2 : (if q > l then some (SchedError.capacity a.workshop.name b l) else none) =
      (none : Option SchedError) := h
  rw [if_pos (Int.not_le.mp hq)] at h2
  exact absurd h2 (by simp)

theorem capRespected_mono {c : Option Int} {n n' : Nat} (h : n' ≤ n)
    (hc : capRespected c n = true) : capRespected c n' = true := by
  cases c with
  | none => rfl
  | some l =>
    simp only [capRespected, decide_eq_true_eq] at hc ⊢
    omega

theorem cap_init (ws : List Workshop) (h : ∀ w ∈ ws, capsNonneg w = true) :
    cap_ok (Schedule.init ws) := by
  intro c hc
  rcases mem_flat_elim hc with ⟨e, he, kv, hkv, rfl⟩
  obtain ⟨hnd, hts, hempty⟩ := init_good ws
  obtain ⟨hs, ha, hw⟩ := hempty e he kv hkv
  have hcaps := h _ hw
  unfold capsNonneg at hcaps
  rw [Bool.and_eq_true] at hcaps
  constructor
  · rw [hs]
    cases hcs : kv.2.workshop.capacity_students with
    | none => rfl
    | some l =>
      have h1 := hcaps.1
      rw [hcs] at h1
      simp only [decide_eq_true_eq] at h1
      simp only [capRespected, List.length_nil, decide_eq_true_eq]
      exact_mod_cast h1
  · rw [ha]
    cases hcs : kv.2.workshop.capacity_adults with
    | none => rfl
    | some l =>
      have h1 := hcaps.2
      rw [hcs] at h1
      simp only [decide_eq_true_eq] at h1
      simp only [capRespected, List.length_nil, decide_eq_true_eq]
      exact_mod_cast h1

theorem alGetD_of_alGet_some {α : Type} {l : List (String × α)} {k : String} {v d : α}
    (h : alGet l k = some v) : alGetD l k d = v := by
  unfold alGetD
  rw [h]
  rfl

theorem cap_update_add_student {s : Schedule} {sid ts wid : String} {a : Assignment}
    (hcap : cap_ok s) (hget : s.get_assignment ts wid = some a)
    (hfresh : s.has_person_in_timeslot sid ts true = false)
    (hchk : check_capacity a true ((a.students.length : Int) + 1) = none) :
    cap_ok (s.updateAssignment ts wid
      (fun x => { x with students := setAdd sid x.students })) := by
  intro c hc
  rcases mem_flat_update hc with hold | ⟨a', hget', rfl⟩
  · exact hcap c hold
  · have haa : a' = a := by
      rw [hget] at hget'
      injection hget' with h'
      exact h'.symm
    subst haa
    rcases get_assignment_some_inner hget with ⟨inner, hi, hwid⟩
    have hmem : (wid, a') ∈ inner := alGet_mem hwid
    have hin : (ts, a') ∈ s.flat_assignments := by
      have : ((ts, inner).1, (wid, a').2) ∈ s.flat_assignments :=
        mem_flat_intro (alGet_mem hi) hmem
      exact this
    have hnot : sid ∉ a'.students := by
      have hscan := not_in_timeslot hfresh (wid, a')
        (by rw [alGetD_of_alGet_some hi]; exact hmem)
      simpa using hscan
    constructor
    · show capRespected a'.workshop.capacity_students (setAdd sid a'.students).length = true
      rw [length_setAdd_of_not_mem hnot]
      cases hcs : a'.workshop.capacity_students with
      | none => rfl
      | some l =>
        have hle := check_capacity_none hchk l hcs
        simp only [capRespected, decide_eq_true_eq]
        push_cast
        omega
    · exact (hcap (ts, a') hin).2

theorem cap_update_add_adult {s : Schedule} {aid ts wid : String} {a : Assignment}
    (hcap : cap_ok s) (hget : s.get_assignment ts wid = some a)
    (hfresh : s.has_person_in_timeslot aid ts false = false)
    (hchk : check_capacity a false ((a.adults.length : Int) + 1) = none) :
    cap_ok (s.updateAssignment ts wid
      (fun x => { x with adults := setAdd aid x.adults })) := by
  intro c hc
  rcases mem_flat_update hc with hold | ⟨a', hget', rfl⟩
  · exact hcap c hold
  · have haa : a' = a := by
      rw [hget] at hget'
      injection hget' with h'
      exact h'.symm
    subst haa
    rcases get_assignment_some_inner hget with ⟨inner, hi, hwid⟩
    have hmem : (wid, a') ∈ inner := alGet_mem hwid
    have hin : (ts, a') ∈ s.flat_assignments := by
      have : ((ts, inner).1, (wid, a').2) ∈ s.flat_assignments :=
        mem_flat_intro (alGet_mem hi) hmem
      exact this
    have hnot : aid ∉ a'.adults := by
      have hscan := not_in_timeslot hfresh (wid, a')
        (by rw [alGetD_of_alGet_some hi]; exact hmem)
      simpa using hscan
    constructor
    · exact (hcap (ts, a') hin).1
    · show capRespected a'.workshop.capacity_adults (setAdd aid a'.adults).length = true
      rw [length_setAdd_of_not_mem hnot]
      cases hcs : a'.workshop.capacity_adults with
      | none => rfl
      | some l =>
        have hle := check_capacity_none hchk l hcs
        simp only [capRespected, decide_eq_true_eq]
        push_cast
        omega

theorem cap_update_shrink {s : Schedule} {ts wid : String} {f : Assignment → Assignment}
    (hW : ∀ x, (f x).workshop = x.workshop)
    (hS : ∀ x, (f x).students.length ≤ x.students.length)
    (hA : ∀ x, (f x).adults.length ≤ x.adults.length)
    (hcap : cap_ok s) : cap_ok (s.updateAssignment ts wid f) := by
  intro c hc
  rcases mem_flat_update hc with hold | ⟨a, hget, rfl⟩
  · exact hcap c hold
  · rcases get_assignment_some_inner hget with ⟨inner, hi, hwid⟩
    have hin : (ts, a) ∈ s.flat_assignments := by
      have : ((ts, inner).1, (wid, a).2) ∈ s.flat_assignments :=
        mem_flat_intro (alGet_mem hi) (alGet_mem hwid)
      exact this
    have hold := hcap (ts, a) hin
    constructor
    · show capRespected (f a).workshop.capacity_students (f a).students.length = true
      rw [hW a]
      exact capRespected_mono (hS a) hold.1
    · show capRespected (f a).workshop.capacity_adults (f a).adults.length = true
      rw [hW a]
      exact capRespected_mono (hA a) hold.2

theorem cap_applyOp {s : Schedule} (hcap : cap_ok s) (op : Op) :
    cap_ok (s.applyOp op) := by
  cases op with
  | assignS sid ts wid =>
    show cap_ok (match s.assign_student sid ts wid with
                 | .ok s' => s'
                 | .error _ => s)
    cases h : s.assign_student sid ts wid with
    | error e => exact hcap
    | ok s' =>
      rcases assign_student_ok h with ⟨a, hget, hfresh, hchk, rfl⟩
      exact cap_update_add_student hcap hget hfresh hchk
  | assignA aid ts wid =>
    show cap_ok (match s.assign_adult aid ts wid with
                 | .ok s' => s'
                 | .error _ => s)
    cases h : s.assign_adult aid ts wid with
    | error e => exact hcap
    | ok s' =>
      rcases assign_adult_ok h with ⟨a, hget, hfresh, hchk, rfl⟩
      exact cap_update_add_adult hcap hget hfresh hchk
  | unassignS sid ts wid =>
    exact cap_update_shrink (fun x => rfl)
      (fun x => length_setDiscard_le sid x.students) (fun x => Nat.le_refl _) hcap
  | unassignA aid ts wid =>
    exact cap_update_shrink (fun x => rfl)
      (fun x => Nat.le_refl _) (fun x => length_setDiscard_le aid x.adults) hcap

theorem cap_run {s : Schedule} (hcap : cap_ok s) (ops : List Op) :
    cap_ok (s.run ops) := by
  induction ops generalizing s with
  | nil => exact hcap
  | cons op rest ih => exact ih (cap_applyOp hcap op)

theorem updateAssignment_eq_self {s : Schedule} {ts wid : String} {f : Assignment → Assignment}
    (h : ∀ a, s.get_assignment ts wid = some a → f a = a) :
    s.updateAssignment ts wid f = s := by
  unfold Schedule.updateAssignment
  have heq : alModify s.assignments ts (fun inner => alModify inner wid f) = s.assignments := by
    cases hts : alGet s.assignments ts with
    | none =>
      apply alModify_eq_self
      intro v hv
      rw [hts] at hv
      cases hv
    | some inner =>
      apply alModify_eq_self
      intro v hv
      rw [hts] at hv
      injection hv with hv
      subst hv
      apply alModify_eq_self
      intro a ha
      apply h
      unfold Schedule.get_assignment
      rw [alGetD_of_alGet_some hts]
      exact ha
  rw [heq]

theorem has_person_of_mem_students {s : Schedule} {pid ts wid : String} {a : Assignment}
    (hget : s.get_assignment ts wid = some a) (hin : pid ∈ a.students) :
    s.has_person_in_timeslot pid ts true = true := by
  rcases get_assignment_some_inner hget with ⟨inner, hi, hw⟩
  unfold Schedule.has_person_in_timeslot
  apply List.any_eq_true.mpr
  refine ⟨(wid, a), ?_, by simpa using hin⟩
  rw [alGetD_of_alGet_some hi]
  exact alGet_mem hw

theorem has_person_of_mem_adults {s : Schedule} {pid ts wid : String} {a : Assignment}
    (hget : s.get_assignment ts wid = some a) (hin : pid ∈ a.adults) :
    s.has_person_in_timeslot pid ts false = true := by
  rcases get_assignment_some_inner hget with ⟨inner, hi, hw⟩
  unfold Schedule.has_person_in_timeslot
  apply List.any_eq_true.mpr
  refine ⟨(wid, a), ?_, by simpa using hin⟩
  rw [alGetD_of_alGet_some hi]
  exact alGet_mem hw

theorem mapMO_length {α β : Type} {f : α → Option β} :
    ∀ {l : List α} {l' : List β}, mapMO f l = some l' → l'.length = l.length := by
  intro l
  induction l with
  | nil =>
    intro l' h
    simp only [mapMO, Option.some.injEq] at h
    rw [← h]
    rfl
  | cons x xs ih =>
    intro l' h
    unfold mapMO at h
    cases hx : f x with
    | none => rw [hx] at h; simp at h
    | some y =>
      rw [hx] at h
      cases hxs : mapMO f xs with
      | none => rw [hxs] at h; simp at h
      | some ys =>
        rw [hxs] at h
        simp only [Option.some.injEq] at h
        rw [← h]
        simp [ih hxs]

theorem mapMO_isSome {α β : Type} {f : α → Option β} :
    ∀ {l : List α}, (∀ x ∈ l, (f x).isSome) → ∃ l', mapMO f l = some l' := by
  intro l
  induction l with
  | nil => intro _; exact ⟨[], rfl⟩
  | cons x xs ih =>
    intro h
    rcases Option.isSome_iff_exists.mp (h x (List.mem_cons_self _ _)) with ⟨y, hy⟩
    rcases ih (fun z hz => h z (List.mem_cons_of_mem _ hz)) with ⟨ys, hys⟩
    exact ⟨y :: ys, by simp [mapMO, hy, hys]⟩

theorem mapMO_all_some {α β : Type} {f : α → Option β} {g : α → β} :
    ∀ {l : List α}, (∀ x ∈ l, f x = some (g x)) → mapMO f l = some (l.map g) := by
  intro l
  induction l with
  | nil => intro _; rfl
  | cons x xs ih =>
    intro h
    have hx := h x (List.mem_cons_self _ _)
    have hxs := ih (fun z hz => h z (List.mem_cons_of_mem _ hz))
    simp [mapMO, hx, hxs]

theorem joinNames_nil (f : String → Option String) : joinNames f [] = some "" := by
  have h : String.intercalate ", " ([] : List String) = "" := by decide
  simp [joinNames, sortBy, mapMO, h]

theorem joinNames_isSome {f : String → Option String} {ids : List String}
    (h : ∀ i ∈ ids, (f i).isSome) : ∃ v, joinNames f ids = some v := by
  unfold joinNames
  rcases mapMO_isSome (fun x hx => h x (mem_sortBy.mp hx)) with ⟨l', hl'⟩
  exact ⟨String.intercalate ", " l', by rw [hl']; rfl⟩

theorem buildRow_isSome {sd : List (String × Student)} {ad : List (String × Adult)}
    {c : String × Assignment}
    (hs : ∀ i ∈ c.2.students, (alGet sd i).isSome)
    (ha : ∀ i ∈ c.2.adults, (alGet ad i).isSome) :
    (buildRow sd ad c).isSome := by
  unfold buildRow
  rcases joinNames_isSome (f := fun i => (alGet sd i).map (·.name))
      (fun i hi => by simpa using hs i hi) with ⟨al, hal⟩
  rcases joinNames_isSome (f := fun i => (alGet ad i).map (·.name))
      (fun i hi => by simpa using ha i hi) with ⟨ad', had⟩
  rw [hal, had]
  rfl

theorem buildRow_of_empty {sd : List (String × Student)} {ad : List (String × Adult)}
    {c : String × Assignment} (hs : c.2.students = []) (ha : c.2.adults = []) :
    buildRow sd ad c =
      some { franja := c.1, espai := c.2.workshop.space, taller := c.2.workshop.name,
             alumnes := "", adults := "", notes := c.2.workshop.notes.getD "" } := by
  unfold buildRow
  rw [hs, ha, joinNames_nil, joinNames_nil]

theorem not_mem_getD_keys {acc : List (String × List (String × Assignment))} {i ts : String}
    (h : ∀ e ∈ acc, i ∉ e.2.map Prod.fst) : i ∉ (alGetD acc ts []).map Prod.fst := by
  cases hg : alGet acc ts with
  | none =>
    unfold alGetD
    rw [hg]
    simp
  | some inner =>
    rw [alGetD_of_alGet_some hg]
    exact h (ts, inner) (alGet_mem hg)

theorem length_alInsert_of_not_mem {α : Type} {l : List (String × α)} {k : String} (v : α)
    (h : k ∉ l.map Prod.fst) : (alInsert l k v).length = l.length + 1 := by
  have h1 : (alInsert l k v).length = ((alInsert l k v).map Prod.fst).length :=
    (List.length_map _ _).symm
  rw [h1, alInsert_fst_of_not_mem v h]
  simp

theorem sumInner_alInsert {γ : Type} (l : List (String × List γ)) (k : String) (v : List γ) :
    ((alInsert l k v).map (fun e => e.2.length)).sum + (alGetD l k []).length =
      (l.map (fun e => e.2.length)).sum + v.length := by
  induction l with
  | nil => simp [alInsert, alGetD, alGet]
  | cons kv rest ih =>
    obtain ⟨k0, v0⟩ := kv
    by_cases hk : k0 = k
    · subst hk
      have h1 : alInsert ((k0, v0) :: rest) k0 v = (k0, v) :: rest := by
        simp [alInsert]
      have hd : alGetD ((k0, v0) :: rest) k0 [] = v0 := by
        simp [alGetD, alGet]
      rw [h1, hd]
      simp only [List.map_cons, List.sum_cons]
      omega
    · have hd : alGetD ((k0, v0) :: rest) k [] = alGetD rest k [] := by
        simp [alGetD, alGet, hk]
      simp only [alInsert, hk, if_false, List.map_cons, List.sum_cons, hd]
      omega

theorem total_eq_sumInner (s : Schedule) :
    s.total_assignments = (s.assignments.map (fun e => e.2.length)).sum := by
  unfold Schedule.total_assignments Schedule.flat_assignments
  rw [List.length_flatMap]
  congr 1
  simp

theorem sumInner_initStep (acc : List (String × List (String × Assignment))) (w : Workshop)
    (hfresh : ∀ e ∈ acc, w.identifier ∉ e.2.map Prod.fst) :
    ((initStep acc w).map (fun e => e.2.length)).sum =
      (acc.map (fun e => e.2.length)).sum + 1 := by
  have h1 := sumInner_alInsert acc w.timeslot
    (alInsert (alGetD acc w.timeslot [])
      w.identifier { workshop := w, students := [], adults := [] })
  have h2 : (alInsert (alGetD acc w.timeslot []) w.identifier
      { workshop := w, students := [], adults := [] }).length =
      (alGetD acc w.timeslot []).length + 1 :=
    length_alInsert_of_not_mem _ (not_mem_getD_keys hfresh)
  unfold initStep
  omega

theorem initStep_keeps_fresh {acc : List (String × List (String × Assignment))}
    {w : Workshop} {i : String} (hne : i ≠ w.identifier)
    (hfresh : ∀ e ∈ acc, i ∉ e.2.map Prod.fst) :
    ∀ e ∈ initStep acc w, i ∉ e.2.map Prod.fst := by
  intro e he
  rcases mem_alInsert he with hmem | rfl
  · exact hfresh e hmem
  · intro hin
    have hin2 : i ∈ (alInsert (alGetD acc w.timeslot []) w.identifier
        { workshop := w, students := [], adults := [] }).map Prod.fst := hin
    rcases List.mem_map.mp hin2 with ⟨kv, hkv, rfl⟩
    rcases mem_alInsert hkv with hmem | rfl
    · exact not_mem_getD_keys hfresh (List.mem_map.mpr ⟨kv, hmem, rfl⟩)
    · exact hne rfl

theorem sumInner_initFold :
    ∀ (ws : List Workshop) (acc : List (String × List (String × Assignment))),
      (ws.map Workshop.identifier).Nodup →
      (∀ w ∈ ws, ∀ e ∈ acc, w.identifier ∉ e.2.map Prod.fst) →
      ((ws.foldl initStep acc).map (fun e => e.2.length)).sum =
        (acc.map (fun e => e.2.length)).sum + ws.length := by
  intro ws
  induction ws with
  | nil => intro acc _ _; simp
  | cons w rest ih =>
    intro acc hnd hfresh
    rw [List.map_cons, List.nodup_cons] at hnd
    simp only [List.foldl_cons]
    have hstep := sumInner_initStep acc w
      (fun e he => hfresh w (List.mem_cons_self _ _) e he)
    have hfresh2 : ∀ x ∈ rest, ∀ e ∈ initStep acc w, x.identifier ∉ e.2.map Prod.fst := by
      intro x hx
      refine initStep_keeps_fresh ?_ (fun e he => hfresh x (List.mem_cons_of_mem _ hx) e he)
      intro hh
      exact hnd.1 (hh ▸ List.mem_map.mpr ⟨x, hx, rfl⟩)
    rw [ih (initStep acc w) hnd.2 hfresh2, hstep]
    simp
    omega

theorem catalog_fold_length :
    ∀ (ws : List Workshop) (acc : List (String × Workshop)),
      (ws.map Workshop.identifier).Nodup →
      (∀ w ∈ ws, w.identifier ∉ acc.map Prod.fst) →
      (ws.foldl (fun d w => alInsert d w.identifier w) acc).length =
        acc.length + ws.length := by
  intro ws
  induction ws with
  | nil => intro acc _ _; simp
  | cons w rest ih =>
    intro acc hnd hfresh
    rw [List.map_cons, List.nodup_cons] at hnd
    simp only [List.foldl_cons]
    have hfresh2 : ∀ x ∈ rest, x.identifier ∉ (alInsert acc w.identifier w).map Prod.fst := by
      intro x hx hin
      rw [alInsert_fst_of_not_mem _ (hfresh w (List.mem_cons_self _ _))] at hin
      rcases List.mem_append.mp hin with h1 | h1
      · exact hfresh x (List.mem_cons_of_mem _ hx) h1
      · simp only [List.mem_singleton] at h1
        exact hnd.1 (h1 ▸ List.mem_map.mpr ⟨x, hx, rfl⟩)
    rw [ih (alInsert acc w.identifier w) hnd.2 hfresh2,
        length_alInsert_of_not_mem _ (hfresh w (List.mem_cons_self _ _))]
    simp
    omega

theorem getcell_initStep_self (acc : List (String × List (String × Assignment)))
    (w : Workshop) :
    alGet (alGetD (initStep acc w) w.timeslot []) w.identifier =
      some { workshop := w, students := [], adults := [] } := by
  unfold initStep
  rw [alGetD_of_alGet_some (alGet_alInsert_self _ _ _)]
  exact alGet_alInsert_self _ _ _

theorem getcell_initStep_ne (acc : List (String × List (String × Assignment)))
    (w' : Workshop) {ts wid : String} (h : wid ≠ w'.identifier) :
    alGet (alGetD (initStep acc w') ts []) wid = alGet (alGetD acc ts []) wid := by
  unfold initStep
  by_cases hts : ts = w'.timeslot
  · subst hts
    rw [alGetD_of_alGet_some (alGet_alInsert_self _ _ _)]
    rw [alGet_alInsert_ne _ h]
  · unfold alGetD
    rw [alGet_alInsert_ne _ hts]

theorem getcell_fold_preserve :
    ∀ (ws : List Workshop) (acc : List (String × List (String × Assignment)))
      {ts wid : String} {a : Assignment},
      alGet (alGetD acc ts []) wid = some a →
      (∀ w ∈ ws, w.identifier ≠ wid) →
      alGet (alGetD (ws.foldl initStep acc) ts []) wid = some a := by
  intro ws
  induction ws with
  | nil => intro acc ts wid a h _; exact h
  | cons w rest ih =>
    intro acc ts wid a h hne
    simp only [List.foldl_cons]
    refine ih (initStep acc w) ?_ (fun x hx => hne x (List.mem_cons_of_mem _ hx))
    rw [getcell_initStep_ne acc w (fun hh => hne w (List.mem_cons_self _ _) hh.symm)]
    exact h

theorem init_presence {ws : List Workshop} (hnd : (ws.map Workshop.identifier).Nodup)
    {w : Workshop} (hw : w ∈ ws) :
    (Schedule.init ws).get_assignment w.timeslot w.identifier =
      some { workshop := w, students := [], adults := [] } := by
  rcases List.append_of_mem hw with ⟨l1, l2, rfl⟩
  show alGet (alGetD ((l1 ++ w :: l2).foldl initStep []) w.timeslot []) w.identifier = _
  rw [List.foldl_append, List.foldl_cons]
  apply getcell_fold_preserve l2 _ (getcell_initStep_self _ w)
  have hsub : ((w :: l2).map Workshop.identifier).Nodup := by
    refine List.Nodup.sublist ?_ hnd
    exact List.Sublist.map _ (List.sublist_append_right l1 (w :: l2))
  rw [List.map_cons, List.nodup_cons] at hsub
  intro x hx hh
  exact hsub.1 (hh ▸ List.mem_map.mpr ⟨x, hx, rfl⟩)

theorem get_update_map_workshop {s : Schedule} {ts wid : String} {f : Assignment → Assignment}
    (hW : ∀ x, (f x).workshop = x.workshop) (t w : String) :
    ((s.updateAssignment ts wid f).get_assignment t w).map Assignment.workshop =
      (s.get_assignment t w).map Assignment.workshop := by
  by_cases h : t = ts ∧ w = wid
  · obtain ⟨rfl, rfl⟩ := h
    cases hget : s.get_assignment t w with
    | none =>
      rw [updateAssignment_eq_self (fun a ha => by rw [hget] at ha; cases ha), hget]
    | some a =>
      rw [get_assignment_updateAssignment_self f hget]
      simp [hW]
  · rw [get_assignment_updateAssignment_other f h]

theorem workshop_stable_applyOp (s : Schedule) (op : Op) (ts wid : String) :
    ((s.applyOp op).get_assignment ts wid).map Assignment.workshop =
      (s.get_assignment ts wid).map Assignment.workshop := by
  cases op with
  | assignS sid ts0 wid0 =>
    show (((match s.assign_student sid ts0 wid0 with
            | .ok s' => s'
            | .error _ => s)).get_assignment ts wid).map Assignment.workshop = _
    cases h : s.assign_student sid ts0 wid0 with
    | error e => rfl
    | ok s' =>
      rcases assign_student_ok h with ⟨a, _, _, _, rfl⟩
      exact @get_update_map_workshop s ts0 wid0
        (fun x => { x with students := setAdd sid x.students }) (fun x => rfl) ts wid
  | assignA aid ts0 wid0 =>
    show (((match s.assign_adult aid ts0 wid0 with
            | .ok s' => s'
            | .error _ => s)).get_assignment ts wid).map Assignment.workshop = _
    cases h : s.assign_adult aid ts0 wid0 with
    | error e => rfl
    | ok s' =>
      rcases assign_adult_ok h with ⟨a, _, _, _, rfl⟩
      exact @get_update_map_workshop s ts0 wid0
        (fun x => { x with adults := setAdd aid x.adults }) (fun x => rfl) ts wid
  | unassignS sid ts0 wid0 =>
    exact @get_update_map_workshop s ts0 wid0
      (fun x => { x with students := setDiscard sid x.students }) (fun x => rfl) ts wid
  | unassignA aid ts0 wid0 =>
    exact @get_update_map_workshop s ts0 wid0
      (fun x => { x with adults := setDiscard aid x.adults }) (fun x => rfl) ts wid

theorem workshop_stable_run (s : Schedule) (ops : List Op) (ts wid : String) :
    ((s.run ops).get_assignment ts wid).map Assignment.workshop =
      (s.get_assignment ts wid).map Assignment.workshop := by
  induction ops generalizing s with
  | nil => rfl
  | cons op rest ih =>
    show (((s.applyOp op).run rest).get_assignment ts wid).map Assignment.workshop = _
    rw [ih (s.applyOp op), workshop_stable_applyOp]

theorem char_toNat_inj {a b : Char} (h : a.toNat = b.toNat) : a = b := by
  apply Char.ext
  exact UInt32.eq_of_val_eq (Fin.ext h)

theorem lexLt_irrefl : ∀ l : List Char, lexLt l l = false := by
  intro l
  induction l with
  | nil => rfl
  | cons c cs ih => simp [lexLt, ih]

theorem lexLt_asymm : ∀ {l1 l2 : List Char}, lexLt l1 l2 = true → lexLt l2 l1 = false := by
  intro l1
  induction l1 with
  | nil =>
    intro l2 h
    cases l2 with
    | nil => simp [lexLt] at h
    | cons d ds => rfl
  | cons c cs ih =>
    intro l2 h
    cases l2 with
    | nil => simp [lexLt] at h
    | cons d ds =>
      by_cases h1 : c.toNat < d.toNat
      · have h2 : ¬ d.toNat < c.toNat := by omega
        simp [lexLt, h1, h2]
      · by_cases h2 : d.toNat < c.toNat
        · simp [lexLt, h1, h2] at h
        · simp only [lexLt, h1, if_false, h2] at h ⊢
          exact ih h

theorem lexLt_trans : ∀ {l1 l2 l3 : List Char},
    lexLt l1 l2 = true → lexLt l2 l3 = true → lexLt l1 l3 = true := by
  intro l1
  induction l1 with
  | nil =>
    intro l2 l3 h12 h23
    cases l3 with
    | nil =>
      cases l2 with
      | nil => simp [lexLt] at h12
      | cons d ds => simp [lexLt] at h23
    | cons e es => rfl
  | cons c cs ih =>
    intro l2 l3 h12 h23
    cases l2 with
    | nil => simp [lexLt] at h12
    | cons d ds =>
      cases l3 with
      | nil => simp [lexLt] at h23
      | cons e es =>
        by_cases hcd : c.toNat < d.toNat
        · by_cases hde : d.toNat < e.toNat
          · have hce : c.toNat < e.toNat := by omega
            simp [lexLt, hce]
          · by_cases hed : e.toNat < d.toNat
            · simp [lexLt, hde, hed] at h23
            · have hde2 : d.toNat = e.toNat := by omega
              have hce : c.toNat < e.toNat := by omega
              simp [lexLt, hce]
        · by_cases hdc : d.toNat < c.toNat
          · simp [lexLt, hcd, hdc] at h12
          · have hcd2 : c.toNat = d.toNat := by omega
            simp only [lexLt, hcd, if_false, hdc] at h12
            by_cases hde : d.toNat < e.toNat
            · have hce : c.toNat < e.toNat := by omega
              simp [lexLt, hce]
            · by_cases hed : e.toNat < d.toNat
              · simp [lexLt, hde, hed] at h23
              · have hce : ¬ c.toNat < e.toNat := by omega
                have hec : ¬ e.toNat < c.toNat := by omega
                simp only [lexLt, hde, if_false, hed] at h23
                simp only [lexLt, hce, if_false, hec]
                exact ih h12 h23

theorem lexLt_connected : ∀ {l1 l2 : List Char},
    lexLt l1 l2 = false → lexLt l2 l1 = false → l1 = l2 := by
  intro l1
  induction l1 with
  | nil =>
    intro l2 h12 _
    cases l2 with
    | nil => rfl
    | cons d ds => simp [lexLt] at h12
  | cons c cs ih =>
    intro l2 h12 h21
    cases l2 with
    | nil => simp [lexLt] at h21
    | cons d ds =>
      by_cases hcd : c.toNat < d.toNat
      · simp [lexLt, hcd] at h12
      · by_cases hdc : d.toNat < c.toNat
        · simp [lexLt, hdc] at h21
        · have hc : c = d := char_toNat_inj (by omega)
          subst hc
          simp only [lexLt, hcd, if_false, hdc] at h12 h21
          rw [ih h12 h21]

theorem strLt_irrefl (a : String) : strLt a a = false := lexLt_irrefl a.data

theorem strLt_asymm {a b : String} (h : strLt a b = true) : strLt b a = false :=
  lexLt_asymm h

theorem strLt_trans {a b c : String} (h1 : strLt a b = true) (h2 : strLt b c = true) :
    strLt a c = true :=
  lexLt_trans h1 h2

theorem strLt_connected {a b : String} (h1 : strLt a b = false)
    (h2 : strLt b a = false) : a = b :=
  String.ext (lexLt_connected h1 h2)

theorem strLe_total (a b : String) : strLe a b = true ∨ strLe b a = true := by
  unfold strLe
  by_cases h : strLt b a = true
  · right
    simp [strLt_asymm h]
  · left
    simp only [Bool.not_eq_true] at h
    simp [h]

theorem strLe_trans {a b c : String} (h1 : strLe a b = true) (h2 : strLe b c = true) :
    strLe a c = true := by
  unfold strLe at h1 h2 ⊢
  simp only [Bool.not_eq_true'] at h1 h2 ⊢
  by_cases hca : strLt c a = true
  · by_cases hbc : strLt b c = true
    · have := strLt_trans hbc hca
      rw [this] at h1
      cases h1
    · have hbc2 : b = c := strLt_connected (by simpa using hbc) h2
      subst hbc2
      rw [hca] at h1
      cases h1
  · simpa using hca

theorem rowKeyLt_irrefl (a : Row) : rowKeyLt a a = false := by
  simp [rowKeyLt, strLt_irrefl]

theorem rowKeyLt_asymm {a b : Row} (h : rowKeyLt a b = true) : rowKeyLt b a = false := by
  unfold rowKeyLt at h ⊢
  rw [Bool.or_eq_true] at h
  rcases h with h1 | h1
  · have hba := strLt_asymm h1
    have hne : (b.franja == a.franja) = false := by
      apply beq_eq_false_iff_ne.mpr
      intro hh
      rw [hh] at h1
      rw [strLt_irrefl] at h1
      cases h1
    simp [hba, hne]
  · rw [Bool.and_eq_true] at h1
    have hfe : a.franja = b.franja := by
      have := h1.1
      exact eq_of_beq this
    have hlt := strLt_asymm h1.2
    rw [hfe]
    simp [strLt_irrefl, hlt, beq_self_eq_true]

theorem rowKeyLt_trans {a b c : Row} (h1 : rowKeyLt a b = true)
    (h2 : rowKeyLt b c = true) : rowKeyLt a c = true := by
  unfold rowKeyLt at h1 h2 ⊢
  rw [Bool.or_eq_true] at h1 h2
  rcases h1 with hf1 | he1
  · rcases h2 with hf2 | he2
    · simp [strLt_trans hf1 hf2]
    · rw [Bool.and_eq_true] at he2
      have : b.franja = c.franja := eq_of_beq he2.1
      rw [this] at hf1
      simp [hf1]
  · rw [Bool.and_eq_true] at he1
    have hab : a.franja = b.franja := eq_of_beq he1.1
    rcases h2 with hf2 | he2
    · rw [← hab] at hf2
      simp [hf2]
    · rw [Bool.and_eq_true] at he2
      have hbc : b.franja = c.franja := eq_of_beq he2.1
      have hac : a.franja = c.franja := hab.trans hbc
      simp [hac, beq_self_eq_true, strLt_trans he1.2 he2.2]

theorem rowKeyLt_connected {a b : Row} (h1 : rowKeyLt a b = false)
    (h2 : rowKeyLt b a = false) : a.franja = b.franja ∧ a.espai = b.espai := by
  unfold rowKeyLt at h1 h2
  rw [Bool.or_eq_false_iff, Bool.and_eq_false_iff] at h1 h2
  have hf : a.franja = b.franja := strLt_connected h1.1 h2.1
  refine ⟨hf, ?_⟩
  rcases h1.2 with h | h
  · rw [beq_eq_false_iff_ne] at h
    exact absurd hf h
  · rcases h2.2 with h' | h'
    · rw [beq_eq_false_iff_ne] at h'
      exact absurd hf.symm h'
    · exact strLt_connected h h'

theorem rowLe_total (a b : Row) : rowLe a b = true ∨ rowLe b a = true := by
  unfold rowLe
  by_cases h : rowKeyLt b a = true
  · right
    simp [rowKeyLt_asymm h]
  · left
    simp only [Bool.not_eq_true] at h
    simp [h]

theorem rowLe_trans {a b c : Row} (h1 : rowLe a b = true) (h2 : rowLe b c = true) :
    rowLe a c = true := by
  unfold rowLe at h1 h2 ⊢
  simp only [Bool.not_eq_true'] at h1 h2 ⊢
  by_cases hca : rowKeyLt c a = true
  · by_cases hbc : rowKeyLt b c = true
    · rw [rowKeyLt_trans hbc hca] at h1
      cases h1
    · have hkey := rowKeyLt_connected (by simpa using hbc) h2
      have heq : rowKeyLt b a = rowKeyLt c a := by
        unfold rowKeyLt
        rw [hkey.1, hkey.2]
      rw [heq, hca] at h1
      cases h1
  · simpa using hca

/-! Claim theorems. -/

/-- C1: on every schedule built from a workshop catalog, after every
sequence of assign/unassign operations, a person id occupies at most one
assignment cell of a given timeslot, both as a student and as an adult;
and attempting to assign a person already present somewhere in the
timeslot (to any resolvable workshop of it) fails with the
ConflictError. -/
theorem claim_C1 (ws : List Workshop) (ops : List Op) (t p : String) :
    ((Schedule.init ws).run ops).countStudentCells t p ≤ 1 ∧
    ((Schedule.init ws).run ops).countAdultCells t p ≤ 1 ∧
    (∀ wid a, ((Schedule.init ws).run ops).get_assignment t wid = some a →
      ((Schedule.init ws).run ops).has_person_in_timeslot p t true = true →
      ((Schedule.init ws).run ops).assign_student p t wid =
        .error (.conflict p)) ∧
    (∀ wid a, ((Schedule.init ws).run ops).get_assignment t wid = some a →
      ((Schedule.init ws).run ops).has_person_in_timeslot p t false = true →
      ((Schedule.init ws).run ops).assign_adult p t wid =
        .error (.conflict p)) := by
  have hinv := inv_run (init_inv ws) ops
  refine ⟨countStudentCells_le_one hinv t p, countAdultCells_le_one hinv t p, ?_, ?_⟩
  · intro wid a hget hp
    simp [Schedule.assign_student, hget, hp]
  · intro wid a hget hp
    simp [Schedule.assign_adult, hget, hp]

/-- Witness for C1 at a concrete schedule: after assigning student p1 and
adult a1 to workshop w1 of the first timeslot, assigning either of them to
workshop w2 of the same timeslot is rejected with the ConflictError. -/
theorem claim_C1_witness :
    (((Schedule.init
        [⟨"w1", "T1", "A1", "8:45-9:30", none, none, none⟩,
         ⟨"w2", "T2", "A2", "8:45-9:30", none, none, none⟩]).run
        [.assignS "p1" "8:45-9:30" "w1", .assignA "a1" "8:45-9:30" "w1"]).assign_student
        "p1" "8:45-9:30" "w2" = .error (.conflict "p1")) ∧
    (((Schedule.init
        [⟨"w1", "T1", "A1", "8:45-9:30", none, none, none⟩,
         ⟨"w2", "T2", "A2", "8:45-9:30", none, none, none⟩]).run
        [.assignS "p1" "8:45-9:30" "w1", .assignA "a1" "8:45-9:30" "w1"]).assign_adult
        "a1" "8:45-9:30" "w2" = .error (.conflict "a1")) := by
  constructor
  · exact (claim_C1
      [⟨"w1", "T1", "A1", "8:45-9:30", none, none, none⟩,
       ⟨"w2", "T2", "A2", "8:45-9:30", none, none, none⟩]
      [.assignS "p1" "8:45-9:30" "w1", .assignA "a1" "8:45-9:30" "w1"]
      "8:45-9:30" "p1").2.2.1 "w2"
      ⟨⟨"w2", "T2", "A2", "8:45-9:30", none, none, none⟩, [], []⟩
      (by decide) (by decide)
  · exact (claim_C1
      [⟨"w1", "T1", "A1", "8:45-9:30", none, none, none⟩,
       ⟨"w2", "T2", "A2", "8:45-9:30", none, none, none⟩]
      [.assignS "p1" "8:45-9:30" "w1", .assignA "a1" "8:45-9:30" "w1"]
      "8:45-9:30" "a1").2.2.2 "w2"
      ⟨⟨"w2", "T2", "A2", "8:45-9:30", none, none, none⟩, [], []⟩
      (by decide) (by decide)

/-- Counterexample to C2: the capacity invariant is not maintained for
every schedule.  A workshop may be declared with a negative capacity (the
loader parses any integer, e.g. -1), and then the invariant
`len(bucket) <= limit` is already violated by the empty buckets of the
freshly constructed schedule, and it stays violated after a mutation
operation (here a tolerated unassign): no mutation can ever restore it. -/
theorem claim_C2_counterexample :
    ¬ cap_ok (Schedule.init [⟨"w1", "T1", "A1", "8:45-9:30", some (-1), none, none⟩]) ∧
    ¬ cap_ok ((Schedule.init
      [⟨"w1", "T1", "A1", "8:45-9:30", some (-1), none, none⟩]).run
      [.unassignS "s1" "8:45-9:30" "w1"]) ∧
    pyInt "-1" = some (-1) := by
  refine ⟨?_, ?_, by decide⟩
  · unfold cap_ok
    decide
  · unfold cap_ok
    decide

/-- C2 as amended: on every schedule built from a catalog whose declared
capacities are nonnegative (any catalog with a negative declared capacity
violates the invariant from construction on, see the counterexample),
after every sequence of operations every assignment cell respects both
capacity limits; and an assign whose target resolves, whose person is
free in the timeslot, and whose bucket is full, fails with the
CapacityError naming the workshop and the limit. -/
theorem claim_C2_amended (ws : List Workshop) (ops : List Op)
    (hws : ∀ w ∈ ws, capsNonneg w = true) :
    cap_ok ((Schedule.init ws).run ops) ∧
    (∀ sid ts wid a l, ((Schedule.init ws).run ops).get_assignment ts wid = some a →
      ((Schedule.init ws).run ops).has_person_in_timeslot sid ts true = false →
      a.workshop.capacity_students = some l →
      ((a.students.length : Int) + 1) > l →
      ((Schedule.init ws).run ops).assign_student sid ts wid =
        .error (.capacity a.workshop.name true l)) ∧
    (∀ aid ts wid a l, ((Schedule.init ws).run ops).get_assignment ts wid = some a →
      ((Schedule.init ws).run ops).has_person_in_timeslot aid ts false = false →
      a.workshop.capacity_adults = some l →
      ((a.adults.length : Int) + 1) > l →
      ((Schedule.init ws).run ops).assign_adult aid ts wid =
        .error (.capacity a.workshop.name false l)) := by
  refine ⟨cap_run (cap_init ws hws) ops, ?_, ?_⟩
  · intro sid ts wid a l hget hfree hcs hgt
    simp [Schedule.assign_student, hget, hfree, check_capacity, hcs, hgt]
  · intro aid ts wid a l hget hfree hca hgt
    simp [Schedule.assign_adult, hget, hfree, check_capacity, hca, hgt]

/-- Witness for C2 at a concrete schedule: with student capacity 1 and
adult capacity 1 on workshop w1, after one student and one adult are in,
the capacity invariant holds and a second student is rejected with the
CapacityError naming the workshop and the limit. -/
theorem claim_C2_amended_witness :
    cap_ok ((Schedule.init
      [⟨"w1", "T1", "A1", "8:45-9:30", some 1, some 1, none⟩]).run
      [.assignS "s1" "8:45-9:30" "w1"]) ∧
    ((Schedule.init
      [⟨"w1", "T1", "A1", "8:45-9:30", some 1, some 1, none⟩]).run
      [.assignS "s1" "8:45-9:30" "w1"]).assign_student "s2" "8:45-9:30" "w1" =
      .error (.capacity "T1" true 1) := by
  have h := claim_C2_amended [⟨"w1", "T1", "A1", "8:45-9:30", some 1, some 1, none⟩]
    [.assignS "s1" "8:45-9:30" "w1"] (by decide)
  refine ⟨h.1, ?_⟩
  exact h.2.1 "s2" "8:45-9:30" "w1"
    ⟨⟨"w1", "T1", "A1", "8:45-9:30", some 1, some 1, none⟩, ["s1"], []⟩ 1
    (by decide) (by decide) (by decide) (by decide)

/-- C3: in assignStudent/assignAdult the uniqueness-in-timeslot check
precedes the capacity check, so with a resolvable target, a person already
present in the timeslot is rejected with the ConflictError even when the
capacity limit is simultaneously violated; and a person already in the
target workshop's own bucket is rejected with the ConflictError rather
than treated as a no-op. -/
theorem claim_C3 (s : Schedule) (pid ts wid : String) (a : Assignment)
    (hget : s.get_assignment ts wid = some a) :
    (∀ l, s.has_person_in_timeslot pid ts true = true →
      a.workshop.capacity_students = some l →
      ((a.students.length : Int) + 1) > l →
      s.assign_student pid ts wid = .error (.conflict pid)) ∧
    (pid ∈ a.students → s.assign_student pid ts wid = .error (.conflict pid)) ∧
    (∀ l, s.has_person_in_timeslot pid ts false = true →
      a.workshop.capacity_adults = some l →
      ((a.adults.length : Int) + 1) > l →
      s.assign_adult pid ts wid = .error (.conflict pid)) ∧
    (pid ∈ a.adults → s.assign_adult pid ts wid = .error (.conflict pid)) := by
  refine ⟨?_, ?_, ?_, ?_⟩
  · intro l hp _ _
    simp [Schedule.assign_student, hget, hp]
  · intro hin
    simp [Schedule.assign_student, hget, has_person_of_mem_students hget hin]
  · intro l hp _ _
    simp [Schedule.assign_adult, hget, hp]
  · intro hin
    simp [Schedule.assign_adult, hget, has_person_of_mem_adults hget hin]

/-- Witness for C3 at a concrete schedule: with workshop w1 of capacity 1
already holding student s1 and adult a1, re-assigning s1 (respectively a1)
to w1 violates both the uniqueness and the capacity condition and is
rejected with the ConflictError, not the CapacityError. -/
theorem claim_C3_witness :
    (((Schedule.init [⟨"w1", "T1", "A1", "8:45-9:30", some 1, some 1, none⟩]).run
      [.assignS "s1" "8:45-9:30" "w1", .assignA "a1" "8:45-9:30" "w1"]).assign_student
      "s1" "8:45-9:30" "w1" = .error (.conflict "s1")) ∧
    (((Schedule.init [⟨"w1", "T1", "A1", "8:45-9:30", some 1, some 1, none⟩]).run
      [.assignS "s1" "8:45-9:30" "w1", .assignA "a1" "8:45-9:30" "w1"]).assign_adult
      "a1" "8:45-9:30" "w1" = .error (.conflict "a1")) := by
  constructor
  · exact (claim_C3 ((Schedule.init
      [⟨"w1", "T1", "A1", "8:45-9:30", some 1, some 1, none⟩]).run
      [.assignS "s1" "8:45-9:30" "w1", .assignA "a1" "8:45-9:30" "w1"])
      "s1" "8:45-9:30" "w1"
      ⟨⟨"w1", "T1", "A1", "8:45-9:30", some 1, some 1, none⟩, ["s1"], ["a1"]⟩
      (by decide)).1 1 (by decide) (by decide) (by decide)
  · exact (claim_C3 ((Schedule.init
      [⟨"w1", "T1", "A1", "8:45-9:30", some 1, some 1, none⟩]).run
      [.assignS "s1" "8:45-9:30" "w1", .assignA "a1" "8:45-9:30" "w1"])
      "a1" "8:45-9:30" "w1"
      ⟨⟨"w1", "T1", "A1", "8:45-9:30", some 1, some 1, none⟩, ["s1"], ["a1"]⟩
      (by decide)).2.2.2 (by decide)

/-- C4: a mutation call that raises (NotFoundError, ConflictError or
CapacityError) leaves the schedule state, and hence every assignment's
student and adult buckets, exactly as they were: the observed state after
a failed assignStudent/assignAdult call equals the state before it.
The unassign operations never raise. -/
theorem claim_C4 (s : Schedule) (sid aid ts wid : String) :
    (∀ e, s.assign_student sid ts wid = .error e →
      s.applyOp (.assignS sid ts wid) = s) ∧
    (∀ e, s.assign_adult aid ts wid = .error e →
      s.applyOp (.assignA aid ts wid) = s) := by
  constructor
  · intro e h
    show (match s.assign_student sid ts wid with
          | .ok s' => s'
          | .error _ => s) = s
    rw [h]
  · intro e h
    show (match s.assign_adult aid ts wid with
          | .ok s' => s'
          | .error _ => s) = s
    rw [h]

/-- Witness for C4 at a concrete schedule: the three error shapes (missing
workshop, timeslot conflict, full workshop) all leave the state equal to
what it was. -/
theorem claim_C4_witness :
    ((Schedule.init [⟨"w1", "T1", "A1", "8:45-9:30", some 1, some 1, none⟩]).run
      [.assignS "s1" "8:45-9:30" "w1", .assignA "a1" "8:45-9:30" "w1"]).applyOp (.assignS "s2" "8:45-9:30" "zz") =
      (Schedule.init [⟨"w1", "T1", "A1", "8:45-9:30", some 1, some 1, none⟩]).run
      [.assignS "s1" "8:45-9:30" "w1", .assignA "a1" "8:45-9:30" "w1"] ∧
    ((Schedule.init [⟨"w1", "T1", "A1", "8:45-9:30", some 1, some 1, none⟩]).run
      [.assignS "s1" "8:45-9:30" "w1", .assignA "a1" "8:45-9:30" "w1"]).applyOp (.assignS "s1" "8:45-9:30" "w1") =
      (Schedule.init [⟨"w1", "T1", "A1", "8:45-9:30", some 1, some 1, none⟩]).run
      [.assignS "s1" "8:45-9:30" "w1", .assignA "a1" "8:45-9:30" "w1"] ∧
    ((Schedule.init [⟨"w1", "T1", "A1", "8:45-9:30", some 1, some 1, none⟩]).run
      [.assignS "s1" "8:45-9:30" "w1", .assignA "a1" "8:45-9:30" "w1"]).applyOp (.assignA "a2" "8:45-9:30" "w1") =
      (Schedule.init [⟨"w1", "T1", "A1", "8:45-9:30", some 1, some 1, none⟩]).run
      [.assignS "s1" "8:45-9:30" "w1", .assignA "a1" "8:45-9:30" "w1"] := by
  refine ⟨?_, ?_, ?_⟩
  · exact (claim_C4 ((Schedule.init
      [⟨"w1", "T1", "A1", "8:45-9:30", some 1, some 1, none⟩]).run
      [.assignS "s1" "8:45-9:30" "w1", .assignA "a1" "8:45-9:30" "w1"]) "s2" "a2" "8:45-9:30" "zz").1
      (.notFound "zz") (by decide)
  · exact (claim_C4 ((Schedule.init
      [⟨"w1", "T1", "A1", "8:45-9:30", some 1, some 1, none⟩]).run
      [.assignS "s1" "8:45-9:30" "w1", .assignA "a1" "8:45-9:30" "w1"]) "s1" "a2" "8:45-9:30" "w1").1
      (.conflict "s1") (by decide)
  · have h2 := (claim_C4 ((Schedule.init
      [⟨"w1", "T1", "A1", "8:45-9:30", some 1, some 1, none⟩]).run
      [.assignS "s1" "8:45-9:30" "w1", .assignA "a1" "8:45-9:30" "w1"]) "s2" "a2" "8:45-9:30" "w1").2
    exact h2 (.capacity "T1" false 1) (by decide)

/-- C9: unassignStudent and unassignAdult are total (never raise): on an
unresolvable (timeslot, workshop) pair or an absent person they are a
strict no-op on the state, and on a present person they remove exactly
that identifier from exactly that bucket, leaving the catalog and every
other cell untouched. -/
theorem claim_C9 (s : Schedule) (pid ts wid : String) :
    (s.get_assignment ts wid = none →
      s.unassign_student pid ts wid = s ∧ s.unassign_adult pid ts wid = s) ∧
    (∀ a, s.get_assignment ts wid = some a →
      (pid ∉ a.students → s.unassign_student pid ts wid = s) ∧
      (pid ∉ a.adults → s.unassign_adult pid ts wid = s)) ∧
    (∀ a, s.get_assignment ts wid = some a →
      (s.unassign_student pid ts wid).get_assignment ts wid =
        some { a with students := setDiscard pid a.students } ∧
      (s.unassign_adult pid ts wid).get_assignment ts wid =
        some { a with adults := setDiscard pid a.adults } ∧
      (∀ t w, ¬(t = ts ∧ w = wid) →
        (s.unassign_student pid ts wid).get_assignment t w = s.get_assignment t w ∧
        (s.unassign_adult pid ts wid).get_assignment t w = s.get_assignment t w) ∧
      (s.unassign_student pid ts wid).workshops_by_id = s.workshops_by_id ∧
      (s.unassign_adult pid ts wid).workshops_by_id = s.workshops_by_id) := by
  refine ⟨?_, ?_, ?_⟩
  · intro hnone
    constructor
    · apply updateAssignment_eq_self
      intro a ha
      rw [hnone] at ha
      cases ha
    · apply updateAssignment_eq_self
      intro a ha
      rw [hnone] at ha
      cases ha
  · intro a hget
    constructor
    · intro hnot
      apply updateAssignment_eq_self
      intro a' ha'
      rw [hget] at ha'
      injection ha' with ha'
      subst ha'
      show Assignment.mk a.workshop (setDiscard pid a.students) a.adults = a
      rw [setDiscard_of_not_mem hnot]
    · intro hnot
      apply updateAssignment_eq_self
      intro a' ha'
      rw [hget] at ha'
      injection ha' with ha'
      subst ha'
      show Assignment.mk a.workshop a.students (setDiscard pid a.adults) = a
      rw [setDiscard_of_not_mem hnot]
  · intro a hget
    refine ⟨get_assignment_updateAssignment_self _ hget,
            get_assignment_updateAssignment_self _ hget, ?_, rfl, rfl⟩
    intro t w hne
    exact ⟨get_assignment_updateAssignment_other _ hne,
           get_assignment_updateAssignment_other _ hne⟩

/-- Witness for C9 at a concrete schedule holding student s1 and adult a1
in workshop w1: removing an absent person or using a bad pair is a no-op,
and removing s1 removes exactly s1 from exactly the student bucket. -/
theorem claim_C9_witness :
    ((Schedule.init [⟨"w1", "T1", "A1", "8:45-9:30", none, none, none⟩]).run
      [.assignS "s1" "8:45-9:30" "w1", .assignA "a1" "8:45-9:30" "w1"]).unassign_student
      "s9" "8:45-9:30" "w1" =
      (Schedule.init [⟨"w1", "T1", "A1", "8:45-9:30", none, none, none⟩]).run
      [.assignS "s1" "8:45-9:30" "w1", .assignA "a1" "8:45-9:30" "w1"] ∧
    ((Schedule.init [⟨"w1", "T1", "A1", "8:45-9:30", none, none, none⟩]).run
      [.assignS "s1" "8:45-9:30" "w1", .assignA "a1" "8:45-9:30" "w1"]).unassign_student
      "s1" "bad-slot" "w1" =
      (Schedule.init [⟨"w1", "T1", "A1", "8:45-9:30", none, none, none⟩]).run
      [.assignS "s1" "8:45-9:30" "w1", .assignA "a1" "8:45-9:30" "w1"] ∧
    (((Schedule.init [⟨"w1", "T1", "A1", "8:45-9:30", none, none, none⟩]).run
      [.assignS "s1" "8:45-9:30" "w1", .assignA "a1" "8:45-9:30" "w1"]).unassign_student
      "s1" "8:45-9:30" "w1").get_assignment "8:45-9:30" "w1" =
      some ⟨⟨"w1", "T1", "A1", "8:45-9:30", none, none, none⟩, [], ["a1"]⟩ := by
  refine ⟨?_, ?_, ?_⟩
  · exact ((claim_C9 ((Schedule.init
      [⟨"w1", "T1", "A1", "8:45-9:30", none, none, none⟩]).run
      [.assignS "s1" "8:45-9:30" "w1", .assignA "a1" "8:45-9:30" "w1"])
      "s9" "8:45-9:30" "w1").2.1
      ⟨⟨"w1", "T1", "A1", "8:45-9:30", none, none, none⟩, ["s1"], ["a1"]⟩
      (by decide)).1 (by decide)
  · exact ((claim_C9 ((Schedule.init
      [⟨"w1", "T1", "A1", "8:45-9:30", none, none, none⟩]).run
      [.assignS "s1" "8:45-9:30" "w1", .assignA "a1" "8:45-9:30" "w1"])
      "s1" "bad-slot" "w1").1 (by decide)).1
  · have h := ((claim_C9 ((Schedule.init
      [⟨"w1", "T1", "A1", "8:45-9:30", none, none, none⟩]).run
      [.assignS "s1" "8:45-9:30" "w1", .assignA "a1" "8:45-9:30" "w1"])
      "s1" "8:45-9:30" "w1").2.2
      ⟨⟨"w1", "T1", "A1", "8:45-9:30", none, none, none⟩, ["s1"], ["a1"]⟩
      (by decide)).1
    rw [h]
    decide

/-- C10: a successful assignStudent only adds the student id to the target
cell's student bucket: the workshop catalog, the target's adult bucket and
every other assignment cell in every timeslot are untouched; symmetrically
for assignAdult. -/
theorem claim_C10 (s : Schedule) (pid ts wid : String) (s' : Schedule) :
    (s.assign_student pid ts wid = .ok s' →
      s'.workshops_by_id = s.workshops_by_id ∧
      ∃ a, s.get_assignment ts wid = some a ∧ pid ∉ a.students ∧
        s'.get_assignment ts wid =
          some { a with students := setAdd pid a.students } ∧
        (∀ t w, ¬(t = ts ∧ w = wid) →
          s'.get_assignment t w = s.get_assignment t w)) ∧
    (s.assign_adult pid ts wid = .ok s' →
      s'.workshops_by_id = s.workshops_by_id ∧
      ∃ a, s.get_assignment ts wid = some a ∧ pid ∉ a.adults ∧
        s'.get_assignment ts wid =
          some { a with adults := setAdd pid a.adults } ∧
        (∀ t w, ¬(t = ts ∧ w = wid) →
          s'.get_assignment t w = s.get_assignment t w)) := by
  constructor
  · intro h
    rcases assign_student_ok h with ⟨a, hget, hfresh, hchk, rfl⟩
    refine ⟨rfl, a, hget, ?_, ?_, ?_⟩
    · rcases get_assignment_some_inner hget with ⟨inner, hi, hw⟩
      have hscan := not_in_timeslot hfresh (wid, a)
        (by rw [alGetD_of_alGet_some hi]; exact alGet_mem hw)
      simpa using hscan
    · exact get_assignment_updateAssignment_self _ hget
    · intro t w hne
      exact get_assignment_updateAssignment_other _ hne
  · intro h
    rcases assign_adult_ok h with ⟨a, hget, hfresh, hchk, rfl⟩
    refine ⟨rfl, a, hget, ?_, ?_, ?_⟩
    · rcases get_assignment_some_inner hget with ⟨inner, hi, hw⟩
      have hscan := not_in_timeslot hfresh (wid, a)
        (by rw [alGetD_of_alGet_some hi]; exact alGet_mem hw)
      simpa using hscan
    · exact get_assignment_updateAssignment_self _ hget
    · intro t w hne
      exact get_assignment_updateAssignment_other _ hne

/-- Witness for C10 at a concrete two-workshop schedule: assigning s2 to
w1 adds exactly s2 to w1's student bucket and leaves the catalog and the
other cell untouched. -/
theorem claim_C10_witness :
    ((Schedule.init
      [⟨"w1", "T1", "A1", "8:45-9:30", none, none, none⟩,
       ⟨"w2", "T2", "A2", "9:30-10:15", none, none, none⟩]).run
      [.assignS "s1" "8:45-9:30" "w1"]).workshops_by_id =
      ((Schedule.init
      [⟨"w1", "T1", "A1", "8:45-9:30", none, none, none⟩,
       ⟨"w2", "T2", "A2", "9:30-10:15", none, none, none⟩])).workshops_by_id ∧
    ((Schedule.init
      [⟨"w1", "T1", "A1", "8:45-9:30", none, none, none⟩,
       ⟨"w2", "T2", "A2", "9:30-10:15", none, none, none⟩]).run
      [.assignS "s1" "8:45-9:30" "w1"]).get_assignment "9:30-10:15" "w2" =
      ((Schedule.init
      [⟨"w1", "T1", "A1", "8:45-9:30", none, none, none⟩,
       ⟨"w2", "T2", "A2", "9:30-10:15", none, none, none⟩])).get_assignment
      "9:30-10:15" "w2" := by
  have h := (claim_C10 (Schedule.init
      [⟨"w1", "T1", "A1", "8:45-9:30", none, none, none⟩,
       ⟨"w2", "T2", "A2", "9:30-10:15", none, none, none⟩])
      "s1" "8:45-9:30" "w1"
      ((Schedule.init
      [⟨"w1", "T1", "A1", "8:45-9:30", none, none, none⟩,
       ⟨"w2", "T2", "A2", "9:30-10:15", none, none, none⟩]).run
      [.assignS "s1" "8:45-9:30" "w1"])).1 (by decide)
  rcases h with ⟨hcat, a, hget, hnot, hself, hframe⟩
  refine ⟨hcat, ?_⟩
  exact hframe "9:30-10:15" "w2" (by decide)

/-- Counterexample to C5: `as_rows` does fail on a directory miss.  On a
schedule whose only workshop holds the assigned student s1, calling
`as_rows` with empty directories raises `KeyError` (modelled as `none`):
the absent identifier is not skipped and no row is produced. -/
theorem claim_C5_counterexample :
    ((Schedule.init [⟨"w1", "T1", "A1", "8:45-9:30", none, none, none⟩]).run
      [.assignS "s1" "8:45-9:30" "w1"]).as_rows [] [] = none := by
  decide

/-- C5 as amended: `as_rows` raises `KeyError` when an assigned identifier
is absent from the corresponding directory; whenever every assigned
student and adult identifier resolves, the call succeeds and returns the
row list. -/
theorem claim_C5_amended (s : Schedule) (sd : List (String × Student))
    (ad : List (String × Adult))
    (h : ∀ c ∈ s.flat_assignments,
      (∀ i ∈ c.2.students, (alGet sd i).isSome) ∧
      (∀ i ∈ c.2.adults, (alGet ad i).isSome)) :
    ∃ rows, s.as_rows sd ad = some rows := by
  unfold Schedule.as_rows
  have hsome : ∃ built, mapMO (buildRow sd ad) s.flat_assignments = some built := by
    apply mapMO_isSome
    intro c hc
    exact buildRow_isSome (h c hc).1 (h c hc).2
  rcases hsome with ⟨built, hb⟩
  exact ⟨sortBy rowLe built, by rw [hb]; rfl⟩

/-- Witness for the amended C5 at a concrete schedule: with the assigned
student s1 present in the student directory, `as_rows` succeeds. -/
theorem claim_C5_amended_witness :
    ∃ rows, ((Schedule.init [⟨"w1", "T1", "A1", "8:45-9:30", none, none, none⟩]).run
      [.assignS "s1" "8:45-9:30" "w1"]).as_rows
      [("s1", ⟨"s1", "Anna", none, none⟩)] [] = some rows :=
  claim_C5_amended
    ((Schedule.init [⟨"w1", "T1", "A1", "8:45-9:30", none, none, none⟩]).run
      [.assignS "s1" "8:45-9:30" "w1"])
    [("s1", ⟨"s1", "Anna", none, none⟩)] [] (by decide)

/-- C6, the divergence evaluated on the code: a `Workshop` built without
passing `capacity_adults` does default to 1 (the dataclass default), but
`load_workshops` on a CSV row whose `capacity_adults` field is blank
passes `None` explicitly, so the loaded workshop has no adult limit and a
second adult is accepted instead of being rejected with the
CapacityError. -/
theorem claim_C6_code_bug :
    ({ identifier := "w1", name := "T1", space := "A1",
       timeslot := "8:45-9:30" } : Workshop).capacity_adults = some 1 ∧
    load_workshops DEFAULT_TIMESLOTS
      [{ id := some "w1", name := some "T1", space := some "A1",
         timeslot := some "8:45-9:30", capacity_students := some "",
         capacity_adults := some "", notes := none }] =
      .ok [⟨"w1", "T1", "A1", "8:45-9:30", none, none, none⟩] ∧
    (⟨"w1", "T1", "A1", "8:45-9:30", none, none, none⟩ : Workshop).capacity_adults ≠
      some 1 ∧
    ((Schedule.init [⟨"w1", "T1", "A1", "8:45-9:30", none, none, none⟩]).run
      [.assignA "a1" "8:45-9:30" "w1", .assignA "a2" "8:45-9:30" "w1"]).get_assignment
      "8:45-9:30" "w1" =
      some ⟨⟨"w1", "T1", "A1", "8:45-9:30", none, none, none⟩, [], ["a1", "a2"]⟩ := by
  refine ⟨rfl, by decide, by decide, by decide⟩

/-- Counterexample to C7: two workshops sharing the identifier w1 in two
different timeslots give a schedule with two Assignments but a
single-entry workshop catalog, so the number of Assignments differs from
the number of workshops in the catalog. -/
theorem claim_C7_counterexample :
    (Schedule.init [⟨"w1", "TA", "A1", "8:45-9:30", none, none, none⟩,
                    ⟨"w1", "TB", "A2", "9:30-10:15", none, none, none⟩]).total_assignments = 2 ∧
    (Schedule.init [⟨"w1", "TA", "A1", "8:45-9:30", none, none, none⟩,
                    ⟨"w1", "TB", "A2", "9:30-10:15", none, none, none⟩]).workshops_by_id.length = 1 ∧
    (Schedule.init [⟨"w1", "TA", "A1", "8:45-9:30", none, none, none⟩,
                    ⟨"w1", "TB", "A2", "9:30-10:15", none, none, none⟩]).total_assignments ≠
      (Schedule.init [⟨"w1", "TA", "A1", "8:45-9:30", none, none, none⟩,
                      ⟨"w1", "TB", "A2", "9:30-10:15", none, none, none⟩]).workshops_by_id.length := by
  refine ⟨by decide, by decide, by decide⟩

/-- C7 as amended: when the workshop identifiers are pairwise distinct,
construction creates exactly one empty Assignment per workshop, keyed by
(timeslot, identifier), and the catalog has one entry per workshop, so
the Assignment count equals the catalog size; with duplicate identifiers
the counts can differ (see the counterexample).  In all cases every
Assignment's workshop reference is unchanged by every operation
sequence. -/
theorem claim_C7_amended (ws : List Workshop) (ops : List Op) :
    ((ws.map Workshop.identifier).Nodup →
      (Schedule.init ws).total_assignments = ws.length ∧
      (Schedule.init ws).workshops_by_id.length = ws.length ∧
      (∀ w ∈ ws, (Schedule.init ws).get_assignment w.timeslot w.identifier =
        some { workshop := w, students := [], adults := [] })) ∧
    (∀ ts wid, (((Schedule.init ws).run ops).get_assignment ts wid).map Assignment.workshop =
      ((Schedule.init ws).get_assignment ts wid).map Assignment.workshop) := by
  constructor
  · intro hnd
    refine ⟨?_, ?_, fun w hw => init_presence hnd hw⟩
    · rw [total_eq_sumInner]
      have h := sumInner_initFold ws [] hnd (by simp)
      simpa using h
    · have h := catalog_fold_length ws [] hnd (by simp)
      simpa using h
  · intro ts wid
    exact workshop_stable_run (Schedule.init ws) ops ts wid

/-- Witness for the amended C7 at a concrete two-workshop schedule with
distinct identifiers: two Assignments, two catalog entries, the seeded
empty cell for w1, and an unchanged workshop reference after an assign. -/
theorem claim_C7_witness :
    (Schedule.init [⟨"w1", "TA", "A1", "8:45-9:30", none, none, none⟩,
                    ⟨"w2", "TB", "A2", "8:45-9:30", none, none, none⟩]).total_assignments = 2 ∧
    (Schedule.init [⟨"w1", "TA", "A1", "8:45-9:30", none, none, none⟩,
                    ⟨"w2", "TB", "A2", "8:45-9:30", none, none, none⟩]).workshops_by_id.length = 2 ∧
    (Schedule.init [⟨"w1", "TA", "A1", "8:45-9:30", none, none, none⟩,
                    ⟨"w2", "TB", "A2", "8:45-9:30", none, none, none⟩]).get_assignment
      "8:45-9:30" "w1" =
      some { workshop := ⟨"w1", "TA", "A1", "8:45-9:30", none, none, none⟩,
             students := [], adults := [] } ∧
    (((Schedule.init [⟨"w1", "TA", "A1", "8:45-9:30", none, none, none⟩,
                      ⟨"w2", "TB", "A2", "8:45-9:30", none, none, none⟩]).run
      [.assignS "s1" "8:45-9:30" "w1"]).get_assignment "8:45-9:30" "w1").map
      Assignment.workshop =
      ((Schedule.init [⟨"w1", "TA", "A1", "8:45-9:30", none, none, none⟩,
                       ⟨"w2", "TB", "A2", "8:45-9:30", none, none, none⟩]).get_assignment
        "8:45-9:30" "w1").map Assignment.workshop := by
  have h := claim_C7_amended
    [⟨"w1", "TA", "A1", "8:45-9:30", none, none, none⟩,
     ⟨"w2", "TB", "A2", "8:45-9:30", none, none, none⟩]
    [.assignS "s1" "8:45-9:30" "w1"]
  have h1 := h.1 (by decide)
  exact ⟨h1.1, h1.2.1,
    h1.2.2 ⟨"w1", "TA", "A1", "8:45-9:30", none, none, none⟩ (by decide),
    h.2 "8:45-9:30" "w1"⟩

/-- C8: whenever `as_rows` returns, the returned rows are sorted by the
(timeslot label, space label) key in lexicographic string order and are a
permutation of one built row per (timeslot, workshop) assignment cell (in
particular there are exactly `total_assignments` rows); and on a schedule
with no assignees the call succeeds, every row carries empty student and
adult name strings, and each row carries the timeslot label, space,
workshop name and the notes (or the empty string when notes are absent). -/
theorem claim_C8 (s : Schedule) (sd : List (String × Student))
    (ad : List (String × Adult)) :
    (∀ rows, s.as_rows sd ad = some rows →
      rows.Pairwise (fun r1 r2 => rowLe r1 r2 = true) ∧
      rows.length = s.total_assignments ∧
      ∃ built, mapMO (buildRow sd ad) s.flat_assignments = some built ∧
        List.Perm rows built) ∧
    ((∀ c ∈ s.flat_assignments, c.2.students = [] ∧ c.2.adults = []) →
      ∃ rows, s.as_rows sd ad = some rows ∧
        List.Perm rows (s.flat_assignments.map (fun c =>
          { franja := c.1, espai := c.2.workshop.space, taller := c.2.workshop.name,
            alumnes := "", adults := "", notes := c.2.workshop.notes.getD "" })) ∧
        (∀ r ∈ rows, r.alumnes = "" ∧ r.adults = "")) := by
  constructor
  · intro rows h
    unfold Schedule.as_rows at h
    cases hb : mapMO (buildRow sd ad) s.flat_assignments with
    | none => rw [hb] at h; simp at h
    | some built =>
      rw [hb] at h
      have h2 : some (sortBy rowLe built) = some rows := h
      injection h2 with h2
      subst h2
      refine ⟨sortBy_pairwise rowLe_total (fun a b c => rowLe_trans) built, ?_, built, rfl,
        sortBy_perm rowLe built⟩
      rw [(sortBy_perm rowLe built).length_eq, mapMO_length hb]
      rfl
  · intro hempty
    have hb : mapMO (buildRow sd ad) s.flat_assignments =
        some (s.flat_assignments.map (fun c =>
          { franja := c.1, espai := c.2.workshop.space, taller := c.2.workshop.name,
            alumnes := "", adults := "", notes := c.2.workshop.notes.getD "" })) :=
      mapMO_all_some (fun c hc => buildRow_of_empty (hempty c hc).1 (hempty c hc).2)
    refine ⟨_, by unfold Schedule.as_rows; rw [hb]; rfl, sortBy_perm rowLe _, ?_⟩
    intro r hr
    have hr2 := (sortBy_perm rowLe _).mem_iff.mp hr
    rcases List.mem_map.mp hr2 with ⟨c, hc, rfl⟩
    exact ⟨rfl, rfl⟩

/-- Witness for C8 at a concrete empty two-workshop schedule across two
timeslots: the produced rows are sorted by (timeslot, space), one row per
assignment cell, with empty name strings and notes passed through. -/
theorem claim_C8_witness :
    ([⟨"8:45-9:30", "A", "Fusteria", "", "", ""⟩,
      ⟨"9:30-10:15", "B", "Cuina", "", "", "nota"⟩] : List Row).Pairwise
      (fun r1 r2 => rowLe r1 r2 = true) ∧
    ([⟨"8:45-9:30", "A", "Fusteria", "", "", ""⟩,
      ⟨"9:30-10:15", "B", "Cuina", "", "", "nota"⟩] : List Row).length =
      (Schedule.init
        [⟨"w1", "Cuina", "B", "9:30-10:15", none, none, some "nota"⟩,
         ⟨"w2", "Fusteria", "A", "8:45-9:30", none, none, none⟩]).total_assignments ∧
    (∃ built, mapMO (buildRow [] [])
        (Schedule.init
          [⟨"w1", "Cuina", "B", "9:30-10:15", none, none, some "nota"⟩,
           ⟨"w2", "Fusteria", "A", "8:45-9:30", none, none, none⟩]).flat_assignments =
        some built ∧
      List.Perm [⟨"8:45-9:30", "A", "Fusteria", "", "", ""⟩,
                 ⟨"9:30-10:15", "B", "Cuina", "", "", "nota"⟩] built) ∧
    (∃ rows, (Schedule.init
        [⟨"w1", "Cuina", "B", "9:30-10:15", none, none, some "nota"⟩,
         ⟨"w2", "Fusteria", "A", "8:45-9:30", none, none, none⟩]).as_rows [] [] =
        some rows ∧
      List.Perm rows ((Schedule.init
        [⟨"w1", "Cuina", "B", "9:30-10:15", none, none, some "nota"⟩,
         ⟨"w2", "Fusteria", "A", "8:45-9:30", none, none, none⟩]).flat_assignments.map
          (fun c =>
            { franja := c.1, espai := c.2.workshop.space, taller := c.2.workshop.name,
              alumnes := "", adults := "", notes := c.2.workshop.notes.getD "" })) ∧
      (∀ r ∈ rows, r.alumnes = "" ∧ r.adults = "")) := by
  have h := claim_C8 (Schedule.init
    [⟨"w1", "Cuina", "B", "9:30-10:15", none, none, some "nota"⟩,
     ⟨"w2", "Fusteria", "A", "8:45-9:30", none, none, none⟩]) [] []
  have h1 := h.1 [⟨"8:45-9:30", "A", "Fusteria", "", "", ""⟩,
                  ⟨"9:30-10:15", "B", "Cuina", "", "", "nota"⟩] (by decide)
  exact ⟨h1.1, h1.2.1, h1.2.2, h.2 (by decide)⟩

end Horaris
